import Mathlib

/-!
# terraform-provider-sops: flattening, format resolution and the file resource

A shallow embedding of `sops/flatten.go`, `sops/data_sops_file.go`,
`sops/resource_sops_file.go` and `sops/utils.go`, and what they guarantee.

* Go strings are Lean strings; byte slices are lists of `UInt8`.
* A Go map is the list of its entries in the order a `range` loop visits them.
  Go leaves that order open, so a statement about "any iteration order" is a
  statement about every reordering of those lists (`reorderM`).  The keys of a
  Go map are pairwise distinct.  The map a recursive call returns is visited in
  the order its entries were first assigned; lookups in the result do not depend
  on that order (`mergePrefixed_order`).
* `interface{}` values that reach `flatten` are `Value`s: `nil`, a scalar, a
  `[]interface{}`, a `map[string]interface{}` or a `map[interface{}]interface{}`.
  Floating point scalars are left out.
* A run-time panic (the failed type assertion `key.(string)`) is `none`.
* `crypto/sha1`, `encoding/hex`, `strconv.ParseInt` and `path.Ext` are written
  out; the file system, the sops engine and the functions of the provider whose
  sources are not at hand (`KeyGroups`, `Encrypt`, `validateInputType`,
  `readData`) are the fields of a `Host`.

The definitions come first (with the three size bounds the recursion of
`flatten` needs), the theorems after them.
-/

set_option autoImplicit false
set_option linter.unusedVariables false

namespace Sops

/-! ## Values decoded from a structured store -/

/-- The scalar dynamic values: Go `bool`, integers and `string`. -/
inductive Scalar where
  | bool (b : Bool)
  | int (i : Int)
  | str (s : String)
deriving DecidableEq, Repr

/-- A decoded `interface{}` value. `strMap` is `map[string]interface{}`, `ifaceMap` is
`map[interface{}]interface{}` (its keys are arbitrary comparable dynamic values). -/
inductive Value where
  | null
  | scalar (s : Scalar)
  | slice (xs : List Value)
  | strMap (m : List (String × Value))
  | ifaceMap (m : List (Scalar × Value))

/-! ## Go maps with string keys -/

/-- A Go `map[string]α`: its entries, keys pairwise distinct. -/
abbrev GoMap (α : Type) := List (String × α)

/-- Go `m[k]` as a lookup: the entry stored under `k`, if any. -/
def GoMap.index? {α : Type} : GoMap α → String → Option α
  | [], _ => none
  | (k', v) :: rest, k => if k' = k then some v else GoMap.index? rest k

/-- Go `m[k] = v`: overwrite the entry under `k`, or add one. -/
def GoMap.assign {α : Type} : GoMap α → String → α → GoMap α
  | [], k, v => [(k, v)]
  | (k', v') :: rest, k, v =>
    if k' = k then (k, v) :: rest else (k', v') :: GoMap.assign rest k v

/-- The keys of a Go map. -/
def GoMap.keys {α : Type} (m : GoMap α) : List String := m.map Prod.fst

/-- `fmt.Sprint` of a scalar: booleans as `true`/`false`, integers in decimal, strings as is. -/
def sprint : Scalar → String
  | .bool true => "true"
  | .bool false => "false"
  | .int i => toString i
  | .str s => s

/-! ## `convertMap` and a size measure for the recursion of `flatten` -/

/-- The loop `for key, value := range originalMap` of `convertMap`: every key goes through the
type assertion `key.(string)`, which panics on a key that is not a string. -/
def convertMapRange : List (Scalar × Value) → GoMap Value → Option (GoMap Value)
  | [], convertedMap => some convertedMap
  | (key, value) :: rest, convertedMap =>
    match key with
    | .str s => convertMapRange rest (GoMap.assign convertedMap s value)
    | _ => none

/-- `convertMap`: copy a `map[interface{}]interface{}` into a `map[string]interface{}`. -/
def convertMap (originalMap : List (Scalar × Value)) : Option (GoMap Value) :=
  convertMapRange originalMap []

mutual
/-- Number of constructors of a value (termination measure). -/
def sizeV : Value → Nat
  | .null => 1
  | .scalar _ => 1
  | .slice xs => 1 + sizeL xs
  | .strMap m => 1 + sizeM m
  | .ifaceMap m => 1 + sizeI m
/-- Size of a slice. -/
def sizeL : List Value → Nat
  | [] => 0
  | v :: vs => 1 + sizeV v + sizeL vs
/-- Size of a string-keyed map. -/
def sizeM : List (String × Value) → Nat
  | [] => 0
  | (_, v) :: vs => 1 + sizeV v + sizeM vs
/-- Size of an interface-keyed map. -/
def sizeI : List (Scalar × Value) → Nat
  | [] => 0
  | (_, v) :: vs => 1 + sizeV v + sizeI vs
end

theorem sizeM_assign (m : GoMap Value) (k : String) (v : Value) :
    sizeM (GoMap.assign m k v) ≤ 1 + sizeV v + sizeM m := by
  induction m with
  | nil => simp [GoMap.assign, sizeM]
  | cons e rest ih =>
    obtain ⟨k', v'⟩ := e
    simp only [GoMap.assign]
    split
    · simp only [sizeM]; omega
    · simp only [sizeM]; omega

theorem sizeM_convertMapRange (m : List (Scalar × Value)) (acc c : GoMap Value)
    (h : convertMapRange m acc = some c) : sizeM c ≤ sizeM acc + sizeI m := by
  induction m generalizing acc c with
  | nil =>
    simp only [convertMapRange, Option.some.injEq] at h
    subst h
    simp [sizeI]
  | cons e rest ih =>
    obtain ⟨k, v⟩ := e
    cases k with
    | str s =>
      simp only [convertMapRange] at h
      have h1 := ih _ c h
      have h2 := sizeM_assign acc s v
      simp only [sizeI]
      omega
    | bool b => simp [convertMapRange] at h
    | int i => simp [convertMapRange] at h

theorem sizeM_convertMap (m : List (Scalar × Value)) (c : GoMap Value)
    (h : convertMap m = some c) : sizeM c ≤ sizeI m := by
  have := sizeM_convertMapRange m [] c h
  simpa [sizeM] using this

/-! ## `flatten.go` -/

/-- The inner loops `for fk, fv := range sub { ret[fmt.Sprintf("%s.%s", k, fk)] = fv }`. -/
def mergePrefixed (ret : GoMap String) (k : String) (sub : GoMap String) : GoMap String :=
  sub.foldl (fun acc e => GoMap.assign acc (k ++ "." ++ e.1) e.2) ret

mutual
/-- `flatten`: `ret := make(map[string]string)`, then the `range` loop over `data`. -/
def flatten (data : List (String × Value)) : Option (GoMap String) :=
  flattenRange data []
termination_by (sizeM data, 1)
decreasing_by
  exact Prod.Lex.right _ Nat.zero_lt_one
/-- The loop `for k, v := range data` of `flatten`, from the entries still to visit and
the `ret` built so far. -/
def flattenRange (data : List (String × Value)) (ret : GoMap String) :
    Option (GoMap String) :=
  match data with
  | [] => some ret
  | (k, v) :: rest =>
    match v with
    | .ifaceMap typed =>
      match h : convertMap typed with
      | none => none
      | some converted =>
        match flatten converted with
        | none => none
        | some sub => flattenRange rest (mergePrefixed ret k sub)
    | .strMap typed =>
      match flatten typed with
      | none => none
      | some sub => flattenRange rest (mergePrefixed ret k sub)
    | .slice typed =>
      match flattenSlice typed with
      | none => none
      | some sub => flattenRange rest (mergePrefixed ret k sub)
    | .null => flattenRange rest (GoMap.assign ret k "null")
    | .scalar typed => flattenRange rest (GoMap.assign ret k (sprint typed))
termination_by (sizeM data, 0)
decreasing_by
  all_goals simp only [sizeM, sizeV]
  all_goals apply Prod.Lex.left
  all_goals first | omega | exact Nat.lt_of_le_of_lt (sizeM_convertMap _ _ h) (by omega)
/-- `flattenSlice`: `ret := make(map[string]string)`, then the `range` loop over `data`. -/
def flattenSlice (data : List Value) : Option (GoMap String) :=
  flattenSliceRange data 0 []
termination_by (sizeL data, 1)
decreasing_by
  exact Prod.Lex.right _ Nat.zero_lt_one
/-- The loop `for idx, v := range data` of `flattenSlice`, from the elements still to
visit, the index of the first of them and the `ret` built so far. -/
def flattenSliceRange (data : List Value) (idx : Nat) (ret : GoMap String) :
    Option (GoMap String) :=
  match data with
  | [] => some ret
  | v :: rest =>
    match v with
    | .ifaceMap typed =>
      match h : convertMap typed with
      | none => none
      | some converted =>
        match flatten converted with
        | none => none
        | some sub => flattenSliceRange rest (idx + 1) (mergePrefixed ret (toString idx) sub)
    | .strMap typed =>
      match flatten typed with
      | none => none
      | some sub => flattenSliceRange rest (idx + 1) (mergePrefixed ret (toString idx) sub)
    | .slice typed =>
      match flattenSlice typed with
      | none => none
      | some sub => flattenSliceRange rest (idx + 1) (mergePrefixed ret (toString idx) sub)
    | .null => flattenSliceRange rest (idx + 1) (GoMap.assign ret (toString idx) "null")
    | .scalar typed =>
      flattenSliceRange rest (idx + 1) (GoMap.assign ret (toString idx) (sprint typed))
termination_by (sizeL data, 0)
decreasing_by
  all_goals simp only [sizeL, sizeV]
  all_goals apply Prod.Lex.left
  all_goals first | omega | exact Nat.lt_of_le_of_lt (sizeM_convertMap _ _ h) (by omega)
end

/-- Go `data[k]` on a `map[string]interface{}`: the stored value, `nil` when `k` is absent. -/
def indexOrNil (data : List (String × Value)) (k : String) : Value :=
  (GoMap.index? data k).getD .null

/-- `flattenFromKey`: the returned map and the returned `error` (`none` is Go `nil`, else the
message of `fmt.Errorf("key %s not found", k)`). -/
def flattenFromKey (data : List (String × Value)) (k : String) :
    Option (GoMap String × Option String) :=
  let ret : GoMap String := []
  match indexOrNil data k with
  | .null => some (ret, some ("key " ++ k ++ " not found"))
  | .ifaceMap typed =>
    match convertMap typed with
    | none => none
    | some converted =>
      match flatten converted with
      | none => none
      | some sub => some (mergePrefixed ret k sub, none)
  | .strMap typed =>
    match flatten typed with
    | none => none
    | some sub => some (mergePrefixed ret k sub, none)
  | .slice typed =>
    match flattenSlice typed with
    | none => none
    | some sub => some (mergePrefixed ret k sub, none)
  | .scalar typed => some (GoMap.assign ret k (sprint typed), none)

/-! ## Bytes, `crypto/sha1` and `encoding/hex` -/

deriving instance DecidableEq for Except

/-- A Go `[]byte`. -/
abbrev Bytes := List UInt8

/-- The conversion `[]byte(s)`: the UTF-8 encoding of a string. -/
def bytesOf (s : String) : Bytes := s.toList.flatMap String.utf8EncodeChar

/-- A 32-bit word kept in range. -/
def word32 (x : Nat) : Nat := x % 2 ^ 32

/-- Rotate a 32-bit word left by `n` bits. -/
def rotl32 (x n : Nat) : Nat := word32 ((x <<< n) ||| (x >>> (32 - n)))

/-- The four bytes of a 32-bit word, most significant first. -/
def wordBytes (w : Nat) : Bytes :=
  [UInt8.ofNat (w >>> 24), UInt8.ofNat (w >>> 16), UInt8.ofNat (w >>> 8), UInt8.ofNat w]

/-- SHA-1 padding: the bit `1`, zeros up to 56 modulo 64 bytes, the bit length in 64 bits. -/
def sha1Pad (msg : List Nat) : List Nat :=
  let bits := 8 * msg.length
  msg ++ [128] ++ List.replicate ((119 - msg.length % 64) % 64) 0 ++
    [(bits >>> 56) % 256, (bits >>> 48) % 256, (bits >>> 40) % 256, (bits >>> 32) % 256,
     (bits >>> 24) % 256, (bits >>> 16) % 256, (bits >>> 8) % 256, bits % 256]

/-- Bytes grouped into big-endian 32-bit words. -/
def sha1Words : List Nat → List Nat
  | a :: b :: c :: d :: rest => (a <<< 24 ||| b <<< 16 ||| c <<< 8 ||| d) :: sha1Words rest
  | _ => []

/-- The message schedule grown by `n` words; `ws` holds the words so far, the latest first. -/
def sha1Schedule : Nat → List Nat → List Nat
  | 0, ws => ws
  | n + 1, ws =>
    sha1Schedule n
      (rotl32 (ws.getD 2 0 ^^^ ws.getD 7 0 ^^^ ws.getD 13 0 ^^^ ws.getD 15 0) 1 :: ws)

/-- The five working words of SHA-1. -/
structure Sha1State where
  a : Nat
  b : Nat
  c : Nat
  d : Nat
  e : Nat

/-- Round `t` of the compression function on the schedule word `w`. -/
def sha1Round (t w : Nat) (s : Sha1State) : Sha1State :=
  let fk : Nat × Nat :=
    if t < 20 then ((s.b &&& s.c) ||| ((s.b ^^^ 4294967295) &&& s.d), 0x5A827999)
    else if t < 40 then (s.b ^^^ s.c ^^^ s.d, 0x6ED9EBA1)
    else if t < 60 then ((s.b &&& s.c) ||| (s.b &&& s.d) ||| (s.c &&& s.d), 0x8F1BBCDC)
    else (s.b ^^^ s.c ^^^ s.d, 0xCA62C1D6)
  ⟨word32 (rotl32 s.a 5 + fk.1 + s.e + fk.2 + w), s.a, rotl32 s.b 30, s.c, s.d⟩

/-- The rounds from `t` on, one per schedule word. -/
def sha1Rounds : Nat → List Nat → Sha1State → Sha1State
  | _, [], s => s
  | t, w :: ws, s => sha1Rounds (t + 1) ws (sha1Round t w s)

/-- One 16-word block folded into the chaining value. -/
def sha1Block (h : Sha1State) (block : List Nat) : Sha1State :=
  let s := sha1Rounds 0 (sha1Schedule 64 block.reverse).reverse h
  ⟨word32 (h.a + s.a), word32 (h.b + s.b), word32 (h.c + s.c), word32 (h.d + s.d),
    word32 (h.e + s.e)⟩

/-- The first `n` blocks of a word list folded into the chaining value. -/
def sha1Blocks : Nat → List Nat → Sha1State → Sha1State
  | 0, _, h => h
  | n + 1, ws, h => sha1Blocks n (ws.drop 16) (sha1Block h (ws.take 16))

/-- `sha1.Sum`: the 20-byte SHA-1 digest (FIPS 180-4). -/
def sha1Sum (data : Bytes) : Bytes :=
  let ws := sha1Words (sha1Pad (data.map UInt8.toNat))
  let h := sha1Blocks (ws.length / 16) ws
    ⟨0x67452301, 0xEFCDAB89, 0x98BADCFE, 0x10325476, 0xC3D2E1F0⟩
  wordBytes h.a ++ wordBytes h.b ++ wordBytes h.c ++ wordBytes h.d ++ wordBytes h.e

/-- A hexadecimal digit in lower case. -/
def hexDigit (n : Nat) : Char := "0123456789abcdef".toList.getD n '0'

/-- `hex.EncodeToString`: two lower-case hexadecimal digits per byte. -/
def hexEncodeToString (src : Bytes) : String :=
  String.mk (src.flatMap fun b => [hexDigit (b.toNat / 16), hexDigit (b.toNat % 16)])

/-! ## `strconv.ParseInt` and `validateMode` -/

/-- The two kinds of `strconv.NumError` that `ParseInt` returns for a valid base. -/
inductive NumError where
  | errSyntax
  | errRange
deriving DecidableEq, Repr

/-- The largest `uint64`. -/
def maxUint64 : Nat := 2 ^ 64 - 1

/-- `lower(c)` of `strconv`: the byte with bit `0x20` set. -/
def lower (c : Char) : Nat := c.toNat ||| 0x20

/-- The digit a byte stands for in `strconv.ParseUint`, before it is compared with the base.
A character outside ASCII is a run of bytes above `0x7f`, none of them a digit or a letter,
so the loop fails on the character as it fails on its first byte. -/
def digitVal (c : Char) : Option Nat :=
  if '0'.toNat ≤ c.toNat ∧ c.toNat ≤ '9'.toNat then some (c.toNat - '0'.toNat)
  else if 'a'.toNat ≤ lower c ∧ lower c ≤ 'z'.toNat then some (lower c - 'a'.toNat + 10)
  else none

/-- The loop of `strconv.ParseUint` for an explicit base and 64 bits, from the digits still to
read and the value `n` read so far: the value and the error. -/
def parseUintRange (base cutoff maxVal : Nat) : List Char → Nat → Nat × Option NumError
  | [], n => (n, none)
  | c :: rest, n =>
    match digitVal c with
    | none => (0, some .errSyntax)
    | some d =>
      if d ≥ base then (0, some .errSyntax)
      else if n ≥ cutoff then (maxVal, some .errRange)
      else
        let n' := n * base
        let n1 := (n' + d) % 2 ^ 64
        if n1 < n' ∨ n1 > maxVal then (maxVal, some .errRange)
        else parseUintRange base cutoff maxVal rest n1

/-- `strconv.ParseUint(s, base, 64)` for a base between 2 and 36. -/
def parseUint (s : List Char) (base : Nat) : Nat × Option NumError :=
  if s = [] then (0, some .errSyntax)
  else parseUintRange base (maxUint64 / base + 1) maxUint64 s 0

/-- `strconv.ParseInt(s, base, 64)` for a base between 2 and 36: an optional sign, then
`ParseUint`, then the range check of `int64`. -/
def parseInt (s : String) (base : Nat) : Int × Option NumError :=
  match s.toList with
  | [] => (0, some .errSyntax)
  | c :: rest =>
    let neg : Bool := c = '-'
    let digits := if c = '+' ∨ c = '-' then rest else c :: rest
    let r := parseUint digits base
    if r.2 = some .errSyntax then (0, some .errSyntax)
    else
      let cutoff : Nat := 2 ^ 63
      if neg = false ∧ r.1 ≥ cutoff then (((cutoff - 1 : Nat) : Int), some .errRange)
      else if neg = true ∧ r.1 > cutoff then (-(cutoff : Int), some .errRange)
      else (if neg then -(r.1 : Int) else (r.1 : Int), none)

/-- `validateMode`: the warnings `s` and the errors `es`. The argument is `none` when the
dynamic value `i` is not a string. `len(v)` counts bytes. -/
def validateMode (i : Option String) (k : String) : List String × List String :=
  match i with
  | none => ([], ["expected type of " ++ k ++ " to be string"])
  | some v =>
    let es1 : List String :=
      if v.utf8ByteSize > 4 ∨ v.utf8ByteSize < 3 then
        ["bad mode for file - string length should be 3 or 4 digits: " ++ v]
      else []
    let r := parseInt v 8
    let es2 : List String :=
      if r.2 ≠ none ∨ r.1 > 0o777 ∨ r.1 < 0 then
        ["bad mode for file - must be three octal digits: " ++ v]
      else []
    ([], es1 ++ es2)

/-- The conversion `os.FileMode(n)` of an `int64` to a `uint32`. -/
def fileModeOf (n : Int) : Nat := (n % 2 ^ 32).toNat

/-! ## `path.Ext` and the format of a file -/

/-- The loop of `path.Ext`, from the characters before position `i` (the nearest first) and
the characters from `i + 1` on. -/
def pathExtRange : List Char → List Char → List Char
  | [], _ => []
  | c :: before, after =>
    if c = '/' then []
    else if c = '.' then c :: after
    else pathExtRange before (c :: after)

/-- `path.Ext`: the suffix from the last dot of the last slash-separated element on, empty
when that element has no dot. -/
def pathExt (path : String) : String := String.mk (pathExtRange path.toList.reverse [])

/-- The message of the data source for a file whose extension it does not know. -/
def dataSourceUnknownExt (ext : String) : String :=
  "don't know how to decode file with extension " ++ ext ++
    ", set input_type to json, yaml or raw as appropriate"

/-- The format block of `dataSourceFileRead`: the hint `input_type` when it is not empty,
else the format of the extension of `source_file`. -/
def dataSourceFormat (inputType sourceFile : String) : Except String String :=
  if inputType ≠ "" then .ok inputType
  else
    let ext := pathExt sourceFile
    if ext = ".json" then .ok "json"
    else if ext = ".yaml" ∨ ext = ".yml" then .ok "yaml"
    else if ext = ".env" then .ok "dotenv"
    else if ext = ".ini" then .ok "ini"
    else .error (dataSourceUnknownExt ext)

/-- The severity of a diagnostic. -/
inductive Severity where
  | error
  | warning
deriving DecidableEq, Repr

/-- A `diag.Diagnostic`. -/
structure Diagnostic where
  severity : Severity
  summary : String
  detail : String
  attributePath : Option String
deriving DecidableEq, Repr

/-- The type `diag.Diagnostics`; the empty list is `nil`. -/
abbrev Diagnostics := List Diagnostic

/-- The function `diag.FromErr` on an error that is not `nil`. -/
def diagFromErr (err : String) : Diagnostics :=
  [{ severity := .error, summary := err, detail := "", attributePath := none }]

/-- The diagnostics of the resource for a file whose extension it does not know. -/
def resourceUnknownExt (ext : String) : Diagnostics :=
  [{ severity := .error,
     summary := "Error decoding file",
     detail := "don't know how to decode file with extension " ++ ext ++
       ", set filename to json, yaml or raw as appropriate",
     attributePath := some "filename" }]

/-- The format block of `resourceSopsFileRead`: the format of the extension of `filename`. -/
def resourceFormat (outputPath : String) : Except Diagnostics String :=
  let ext := pathExt outputPath
  if ext = ".json" then .ok "json"
  else if ext = ".yaml" ∨ ext = ".yml" then .ok "yaml"
  else if ext = ".env" then .ok "dotenv"
  else if ext = ".ini" then .ok "ini"
  else .error (resourceUnknownExt ext)

/-- Whether the characters `pat` stand somewhere in `s`, one after the other. -/
def hasInfix (pat s : String) : Bool :=
  s.toList.tails.any fun t => pat.toList.isPrefixOf t

/-! ## The resource and what it calls -/

/-- A `schema.ResourceData` as the provider reads and writes it: the identity, the string
attributes that are set (defaults applied) and the map attributes. -/
structure ResourceData where
  id : String
  attrs : List (String × String)
  maps : List (String × List (String × String))
deriving DecidableEq, Repr

/-- The call `d.Get(key).(string)`: the attribute, the empty string when it is not set. -/
def ResourceData.get (d : ResourceData) (key : String) : String :=
  (GoMap.index? d.attrs key).getD ""

/-- The call `d.GetOk(key)` on a string attribute: the value, and whether it is set to
something other than the zero value. -/
def ResourceData.getOk (d : ResourceData) (key : String) : String × Bool :=
  (d.get key, decide (d.get key ≠ ""))

/-- The call `d.SetId(id)`. -/
def ResourceData.setId (d : ResourceData) (id : String) : ResourceData :=
  { d with id := id }

/-- What `os.Stat` tells the provider: the file is there, it is not (`os.IsNotExist`), or
another error. -/
inductive StatResult where
  | found
  | notExist
  | failed (err : String)
deriving DecidableEq, Repr

/-- An error of `decrypt.Data`: its message, and its user-facing message when it is a
`sops.UserError`. -/
structure DecryptError where
  message : String
  userError : Option String
deriving DecidableEq, Repr

/-- The arguments of `DefaultStoreForPathOrFormat` that select a store. -/
structure Store where
  path : String
  format : String
deriving DecidableEq, Repr

/-- The fields of `EncryptOpts` that `sopsEncrypt` fills from the resource (the cipher and
the key service are constants). -/
structure EncryptOpts (Groups : Type) where
  inputStore : Store
  outputStore : Store
  inputPath : String
  unencryptedSuffix : String
  encryptedSuffix : String
  unencryptedRegex : String
  encryptedRegex : String
  keyGroups : Groups
  groupThreshold : Nat

/-- What the provider calls outside `flatten.go`, `data_sops_file.go`, `resource_sops_file.go`
and `utils.go`: the file system (`FS` is its state), `path.Dir`, `base64`, the sops engine, and
the functions `KeyGroups`, `Encrypt`, `validateInputType` and `readData` of this repository,
whose sources are not at hand. A file system call returns the new state and the error. -/
structure Host (FS Config Groups : Type) where
  stat : FS → String → StatResult
  readFile : FS → String → Except String Bytes
  mkdirAll : FS → String → Nat → FS × Option String
  writeFile : FS → String → Bytes → Nat → FS × Option String
  remove : FS → String → FS × Option String
  pathDir : String → String
  base64Decode : String → Except String Bytes
  KeyGroups : ResourceData → String → Config → Except String Groups
  Encrypt : EncryptOpts Groups → Bytes → Except String Bytes
  decryptData : Bytes → String → Except DecryptError Bytes
  validateInputType : String → Option String
  readData : Bytes → String → ResourceData → ResourceData × Option String

section
variable {FS Config Groups : Type}

/-- `GetInputStore`. -/
def GetInputStore (d : ResourceData) : Store := ⟨d.get "filename", "file"⟩

/-- `GetOutputStore`. -/
def GetOutputStore (d : ResourceData) : Store := ⟨d.get "filename", "file"⟩

/-- `resourceLocalFileContent`: the plaintext, from the first source that is set. -/
def resourceLocalFileContent (h : Host FS Config Groups) (d : ResourceData) (fs : FS) :
    Except String Bytes :=
  if (d.getOk "sensitive_content").2 then .ok (bytesOf (d.getOk "sensitive_content").1)
  else if (d.getOk "content_base64").2 then h.base64Decode (d.getOk "content_base64").1
  else if (d.getOk "source").2 then h.readFile fs (d.getOk "source").1
  else .ok (bytesOf (d.get "content"))

/-- `getKeyGroups`. -/
def getKeyGroups (h : Host FS Config Groups) (d : ResourceData) (encType : String)
    (config : Config) : Except String Groups :=
  h.KeyGroups d encType config

/-- `sopsEncrypt` (its `fmt.Printf` of the encryption type is left out). -/
def sopsEncrypt (h : Host FS Config Groups) (d : ResourceData) (content : Bytes)
    (config : Config) : Except String Bytes :=
  let inputStore := GetInputStore d
  let outputStore := GetOutputStore d
  let encType := d.get "encryption_type"
  match getKeyGroups h d encType config with
  | .error err => .error err
  | .ok groups =>
    match h.Encrypt
        { inputStore := inputStore
          outputStore := outputStore
          inputPath := d.get "filename"
          unencryptedSuffix := ""
          encryptedSuffix := ""
          unencryptedRegex := ""
          encryptedRegex := d.get "encrypted_regex"
          keyGroups := groups
          groupThreshold := 0 } content with
    | .error err => .error err
    | .ok encrypt => .ok encrypt

/-- `resourceSopsFileRead`: the resource data after the call and the diagnostics. -/
def resourceSopsFileRead (h : Host FS Config Groups) (d : ResourceData) (fs : FS) :
    ResourceData × Diagnostics :=
  let outputPath := d.get "filename"
  match h.stat fs outputPath with
  | .notExist => (d.setId "", [])
  | _ =>
    match resourceFormat outputPath with
    | .error diags => (d, diags)
    | .ok format =>
      match h.readFile fs outputPath with
      | .error err =>
        (d, [{ severity := .error, summary := "Error reading file", detail := err,
               attributePath := some "filename" }])
      | .ok outputContent =>
        match h.decryptData outputContent format with
        | .error err =>
          (d, [{ severity := .error, summary := "Error decrypting file",
                 detail := err.userError.getD err.message,
                 attributePath := some "filename" }])
        | .ok cleartext =>
          let outputChecksum := sha1Sum cleartext
          if hexEncodeToString outputChecksum ≠ d.id then (d.setId "", [])
          else (d, [])

/-- `resourceSopsFileCreate`: the resource data and the file system after the call, and the
diagnostics. -/
def resourceSopsFileCreate (h : Host FS Config Groups) (config : Config) (d : ResourceData)
    (fs : FS) : ResourceData × FS × Diagnostics :=
  match resourceLocalFileContent h d fs with
  | .error err => (d, fs, diagFromErr err)
  | .ok content =>
    let checksum := sha1Sum content
    let d := d.setId (hexEncodeToString checksum)
    match sopsEncrypt h d content config with
    | .error err => (d, fs, diagFromErr err)
    | .ok content =>
      let destination := d.get "filename"
      let destinationDir := h.pathDir destination
      let made : FS × Option String :=
        match h.stat fs destinationDir with
        | .found => (fs, none)
        | _ =>
          let dirPerm := d.get "directory_permission"
          let dirMode := (parseInt dirPerm 8).1
          h.mkdirAll fs destinationDir (fileModeOf dirMode)
      match made.2 with
      | some err => (d, made.1, diagFromErr err)
      | none =>
        let filePerm := d.get "file_permission"
        let fileMode := (parseInt filePerm 8).1
        let written := h.writeFile made.1 destination content (fileModeOf fileMode)
        match written.2 with
        | some err => (d, written.1, diagFromErr err)
        | none =>
          let r := resourceSopsFileRead h d written.1
          (r.1, written.1, r.2)

/-- `resourceSopsFileDelete`: `os.Remove` is called and its error dropped. -/
def resourceSopsFileDelete (h : Host FS Config Groups) (d : ResourceData) (fs : FS) :
    FS × Option String :=
  ((h.remove fs (d.get "filename")).1, none)

/-- `dataSourceFileRead`: the resource data after the call and the error. -/
def dataSourceFileRead (h : Host FS Config Groups) (d : ResourceData) (fs : FS) :
    ResourceData × Option String :=
  let sourceFile := d.get "source_file"
  match h.readFile fs sourceFile with
  | .error err => (d, some err)
  | .ok content =>
    match dataSourceFormat (d.get "input_type") sourceFile with
    | .error err => (d, some err)
    | .ok format =>
      match h.validateInputType format with
      | some err => (d, some err)
      | none => h.readData content format d

end

/-! ## A host for the examples -/

/-- A file system in memory: the files with their contents, and the directories. -/
structure MemFS where
  files : List (String × Bytes)
  dirs : List String
deriving DecidableEq, Repr

/-- The part of a path before its last slash, `.` when it has none. -/
def memDir (path : String) : String :=
  match (path.toList.reverse.dropWhile fun c => c ≠ '/') with
  | [] => "."
  | _ :: before => String.mk before.reverse

/-- An example of a host, over `MemFS`: its engine "encrypts" by putting the marker `ENC:` in
front; its `KeyGroups` fails when the key map of the selected backend is empty and gives one
key per map entry otherwise; its `validateInputType` accepts `json`, `yaml`, `dotenv`, `ini`
and `raw`. -/
def memHost : Host MemFS Unit (List String) where
  stat fs path :=
    if (GoMap.index? fs.files path).isSome ∨ path ∈ fs.dirs then .found else .notExist
  readFile fs path :=
    match GoMap.index? fs.files path with
    | some content => .ok content
    | none => .error ("open " ++ path ++ ": no such file or directory")
  mkdirAll fs path _ := ({ fs with dirs := path :: fs.dirs }, none)
  writeFile fs path content _ := ({ fs with files := GoMap.assign fs.files path content }, none)
  remove fs path :=
    match GoMap.index? fs.files path with
    | some _ => ({ fs with files := fs.files.filter fun e => e.1 ≠ path }, none)
    | none => (fs, some ("remove " ++ path ++ ": no such file or directory"))
  pathDir := memDir
  base64Decode _ := .error "illegal base64 data at input byte 0"
  KeyGroups d encType _ :=
    match GoMap.index? d.maps encType with
    | some (e :: es) => .ok ((e :: es).map Prod.fst)
    | _ => .error ("no " ++ encType ++ " keys are configured")
  Encrypt _ content := .ok (bytesOf "ENC:" ++ content)
  decryptData content _ :=
    if (bytesOf "ENC:").isPrefixOf content then .ok (content.drop 4)
    else .error { message := "sops metadata not found", userError := none }
  validateInputType format :=
    if format ∈ ["json", "yaml", "dotenv", "ini", "raw"] then none
    else some "input_type must be one of json, yaml, dotenv, ini or raw"
  readData _ _ d := (d, none)

/-- A new resource: the plaintext `hello`, to be written to `out/secret.yaml` with an age
key. -/
def helloResource : ResourceData :=
  { id := ""
    attrs := [("filename", "out/secret.yaml"), ("encryption_type", "age"),
      ("content", "hello"), ("file_permission", "0777"), ("directory_permission", "0777")]
    maps := [("age", [("age1recipient", "")])] }

/-- The resource `helloResource` with the encryption type `kms` and no kms key. -/
def helloResourceNoKeys : ResourceData :=
  { id := ""
    attrs := [("filename", "out/secret.yaml"), ("encryption_type", "kms"),
      ("content", "hello"), ("file_permission", "0777"), ("directory_permission", "0777")]
    maps := [] }

/-- The lower-case hexadecimal SHA-1 of `hello`. -/
def helloId : String := "aaf4c61ddcc5e8a2dabede0f3b482cd9aea9434d"

/-- The empty file system. -/
def emptyFS : MemFS := { files := [], dirs := [] }

/-- The file system after `helloResource` is created in the empty one. -/
def helloFS : MemFS :=
  { files := [("out/secret.yaml", bytesOf "ENC:hello")], dirs := ["out"] }

/-- The file system `helloFS` after the file is overwritten with the encryption of `bye`. -/
def driftedFS : MemFS :=
  { files := [("out/secret.yaml", bytesOf "ENC:bye")], dirs := ["out"] }

/-! ## The specification of flattening: leaves and their paths -/

/-- A leaf of a tree: `none` for null, else the scalar. -/
abbrev Leaf := Option Scalar

/-- The text a leaf is shown as: `null` for null, else the scalar in its default format. -/
def leafText : Leaf → String
  | none => "null"
  | some s => sprint s

/-- A path from the root, its labels joined by dots. -/
def dotJoin : List String → String
  | [] => ""
  | [s] => s
  | s :: t :: rest => s ++ "." ++ dotJoin (t :: rest)

mutual
/-- The leaves below a value, each with the labels on the way down to it. -/
def leavesV : Value → List (List String × Leaf)
  | .null => [([], none)]
  | .scalar s => [([], some s)]
  | .slice xs => leavesL xs 0
  | .strMap m => leavesM m
  | .ifaceMap m => leavesI m
/-- The leaves of a sequence whose first element has index `idx`: the label of an element is
its zero-based index in decimal. -/
def leavesL : List Value → Nat → List (List String × Leaf)
  | [], _ => []
  | v :: rest, idx =>
    (leavesV v).map (fun e => (toString idx :: e.1, e.2)) ++ leavesL rest (idx + 1)
/-- The leaves of a string-keyed mapping: the label of an entry is its key. -/
def leavesM : List (String × Value) → List (List String × Leaf)
  | [] => []
  | (k, v) :: rest => (leavesV v).map (fun e => (k :: e.1, e.2)) ++ leavesM rest
/-- The leaves of a mapping with arbitrary keys: the label of an entry is the string form of
its key. -/
def leavesI : List (Scalar × Value) → List (List String × Leaf)
  | [] => []
  | (key, v) :: rest => (leavesV v).map (fun e => (sprint key :: e.1, e.2)) ++ leavesI rest
end

/-- The dot-joined paths of the leaves of a tree, one per leaf. -/
def leafPaths (data : List (String × Value)) : List String :=
  (leavesM data).map fun e => dotJoin e.1

/-- The number of leaves (null or scalar values) of a tree. -/
def leafCount (data : List (String × Value)) : Nat := (leavesM data).length

/-- The dynamic value is a Go `string`. -/
def isStr : Scalar → Bool
  | .str _ => true
  | _ => false

mutual
/-- Every `map[interface{}]interface{}` below the value has string keys only (pairwise
distinct, as the keys of a Go map are). -/
def stringKeyedV : Value → Bool
  | .null => true
  | .scalar _ => true
  | .slice xs => stringKeyedL xs
  | .strMap m => stringKeyedM m
  | .ifaceMap m => stringKeyedI m && decide ((m.map Prod.fst).Nodup)
/-- The elements of a sequence are string-keyed. -/
def stringKeyedL : List Value → Bool
  | [] => true
  | v :: rest => stringKeyedV v && stringKeyedL rest
/-- The values of a string-keyed mapping are string-keyed. -/
def stringKeyedM : List (String × Value) → Bool
  | [] => true
  | (_, v) :: rest => stringKeyedV v && stringKeyedM rest
/-- The keys of the mapping are strings and its values are string-keyed. -/
def stringKeyedI : List (Scalar × Value) → Bool
  | [] => true
  | (key, v) :: rest => isStr key && stringKeyedV v && stringKeyedI rest
end

mutual
/-- Some `map[interface{}]interface{}` below the value has a key that is not a string. -/
def nonStringKeyV : Value → Bool
  | .null => false
  | .scalar _ => false
  | .slice xs => nonStringKeyL xs
  | .strMap m => nonStringKeyM m
  | .ifaceMap m => nonStringKeyI m
/-- Some element of the sequence has such a key below it. -/
def nonStringKeyL : List Value → Bool
  | [] => false
  | v :: rest => nonStringKeyV v || nonStringKeyL rest
/-- Some value of the string-keyed mapping has such a key below it. -/
def nonStringKeyM : List (String × Value) → Bool
  | [] => false
  | (_, v) :: rest => nonStringKeyV v || nonStringKeyM rest
/-- Some key of the mapping is not a string, or some value has such a key below it. -/
def nonStringKeyI : List (Scalar × Value) → Bool
  | [] => false
  | (key, v) :: rest => !isStr key || nonStringKeyV v || nonStringKeyI rest
end

mutual
/-- The keys of every `map[interface{}]interface{}` below the value are pairwise distinct, as
the keys of a Go map are. -/
def distinctKeysV : Value → Bool
  | .null => true
  | .scalar _ => true
  | .slice xs => distinctKeysL xs
  | .strMap m => distinctKeysM m
  | .ifaceMap m => decide ((m.map Prod.fst).Nodup) && distinctKeysI m
/-- The same of the elements of a sequence. -/
def distinctKeysL : List Value → Bool
  | [] => true
  | v :: rest => distinctKeysV v && distinctKeysL rest
/-- The same of the values of a string-keyed mapping. -/
def distinctKeysM : List (String × Value) → Bool
  | [] => true
  | (_, v) :: rest => distinctKeysV v && distinctKeysM rest
/-- The same of the values of a mapping with arbitrary keys. -/
def distinctKeysI : List (Scalar × Value) → Bool
  | [] => true
  | (_, v) :: rest => distinctKeysV v && distinctKeysI rest
end

mutual
/-- The value `w` is the value `v` with the entries of its mappings, at every level, visited
in another order. Sequences keep their order. -/
def reorderV : Value → Value → Prop
  | .null, w => w = .null
  | .scalar s, w => w = .scalar s
  | .slice xs, w => ∃ ys, w = .slice ys ∧ reorderL xs ys
  | .strMap m, w => ∃ m', w = .strMap m' ∧ reorderM m m'
  | .ifaceMap m, w => ∃ m', w = .ifaceMap m' ∧ reorderI m m'
/-- Element by element, in the same order. -/
def reorderL : List Value → List Value → Prop
  | [], ys => ys = []
  | x :: xs, ys => ∃ y ys', ys = y :: ys' ∧ reorderV x y ∧ reorderL xs ys'
/-- The same keys with reordered values, in any order. -/
def reorderM : List (String × Value) → List (String × Value) → Prop
  | [], m' => m' = []
  | (k, v) :: rest, m' =>
    ∃ v' l r, m' = l ++ (k, v') :: r ∧ reorderV v v' ∧ reorderM rest (l ++ r)
/-- The same keys with reordered values, in any order. -/
def reorderI : List (Scalar × Value) → List (Scalar × Value) → Prop
  | [], m' => m' = []
  | (k, v) :: rest, m' =>
    ∃ v' l r, m' = l ++ (k, v') :: r ∧ reorderV v v' ∧ reorderI rest (l ++ r)
end

/-! ## Vocabulary of the proofs -/

/-- The assignments `ret[e.1] = e.2` for the entries `e` of a list, in order. -/
def assignAll (ret : GoMap String) (es : List (String × String)) : GoMap String :=
  es.foldl (fun acc e => GoMap.assign acc e.1 e.2) ret

/-- The value of the last entry of a list under a key. -/
def assocLast : List (String × String) → String → Option String
  | [], _ => none
  | (k', v) :: rest, k =>
    match assocLast rest k with
    | some w => some w
    | none => if k' = k then some v else none

/-- The entry `fk -> fv` of a flattened subtree as it is stored under the label `k`. -/
def underLabel (k : String) (e : String × String) : String × String :=
  (k ++ "." ++ e.1, e.2)

/-- Leaves with their labels, as the flat entries they stand for. -/
def flatOf (ls : List (List String × Leaf)) : List (String × String) :=
  ls.map fun e => (dotJoin e.1, leafText e.2)

/-- The type switch that both loops run on a value `v` met under the label `k`. -/
def switchBody (k : String) (v : Value) (ret : GoMap String) : Option (GoMap String) :=
  match v with
  | .ifaceMap typed =>
    match convertMap typed with
    | none => none
    | some converted =>
      match flatten converted with
      | none => none
      | some sub => some (mergePrefixed ret k sub)
  | .strMap typed =>
    match flatten typed with
    | none => none
    | some sub => some (mergePrefixed ret k sub)
  | .slice typed =>
    match flattenSlice typed with
    | none => none
    | some sub => some (mergePrefixed ret k sub)
  | .null => some (GoMap.assign ret k "null")
  | .scalar typed => some (GoMap.assign ret k (sprint typed))

/-- A map with string keys only, retyped. -/
def coerceKeys (m : List (Scalar × Value)) : List (String × Value) :=
  m.map fun e => (sprint e.1, e.2)

/-- The map `out` is `ret` after the assignments `es`, as far as lookups can tell, and its
keys are distinct if those of `ret` are. -/
def Flattens (out ret : GoMap String) (es : List (String × String)) : Prop :=
  (ret.keys.Nodup → out.keys.Nodup) ∧
    ∀ key, GoMap.index? out key = (assocLast es key).or (GoMap.index? ret key)

/-- What the induction proves of trees of size at most `n` that have a key that is not a
string. -/
def PanicsUpTo (n : Nat) : Prop :=
  (∀ data, sizeM data ≤ n → distinctKeysM data = true → nonStringKeyM data = true →
      ∀ ret, flattenRange data ret = none) ∧
  (∀ xs, sizeL xs ≤ n → distinctKeysL xs = true → nonStringKeyL xs = true →
      ∀ idx ret, flattenSliceRange xs idx ret = none)

/-- What the induction proves of trees of size at most `n`. -/
def LoopsUpTo (n : Nat) : Prop :=
  (∀ data, sizeM data ≤ n → stringKeyedM data = true → ∀ ret,
      ∃ out, flattenRange data ret = some out ∧ Flattens out ret (flatOf (leavesM data))) ∧
  (∀ xs, sizeL xs ≤ n → stringKeyedL xs = true → ∀ idx ret,
      ∃ out, flattenSliceRange xs idx ret = some out ∧
        Flattens out ret (flatOf (leavesL xs idx)))

/-! ## Sample trees -/

/-- The tree `{"a": {"b": 1}, "a.b": 2}`: two leaves, both with the dot-joined path `a.b`. -/
def collidingTree : List (String × Value) :=
  [("a", .strMap [("b", .scalar (.int 1))]), ("a.b", .scalar (.int 2))]

/-- The map `collidingTree` with its two entries visited in the other order. -/
def collidingTreeSwapped : List (String × Value) :=
  [("a.b", .scalar (.int 2)), ("a", .strMap [("b", .scalar (.int 1))])]

/-- The tree `{"a": {"b": [1, 2]}, "x": null, "m": {"k": true}, "s": "v"}`, the mapping under
`m` decoded as a `map[interface{}]interface{}`. -/
def sampleTree : List (String × Value) :=
  [("a", .strMap [("b", .slice [.scalar (.int 1), .scalar (.int 2)])]),
   ("x", .null),
   ("m", .ifaceMap [(.str "k", .scalar (.bool true))]),
   ("s", .scalar (.str "v"))]

/-- The tree `{"a": {"b": 1, "c": 2}, "d": 3}`. -/
def orderedTree : List (String × Value) :=
  [("a", .strMap [("b", .scalar (.int 1)), ("c", .scalar (.int 2))]), ("d", .scalar (.int 3))]

/-- The tree `{"a": {1: "x"}, "b": null}`: the mapping under `a`, decoded as a
`map[interface{}]interface{}`, has the integer key `1`. -/
def intKeyTree : List (String × Value) :=
  [("a", .ifaceMap [(.int 1, .scalar (.str "x"))]), ("b", .null)]

/-- The tree `{"a": {1: "x"}, "n": 2}`, the mapping under `a` as in `intKeyTree`. -/
def intKeyData : List (String × Value) :=
  [("a", .ifaceMap [(.int 1, .scalar (.str "x"))]), ("n", .scalar (.int 2))]

/-- The tree `orderedTree` with the entries of both mappings visited in the other order. -/
def orderedTreeSwapped : List (String × Value) :=
  [("d", .scalar (.int 3)), ("a", .strMap [("c", .scalar (.int 2)), ("b", .scalar (.int 1))])]

/-! ## Octal digits -/

/-- The characters `0` to `7`. -/
def octalDigit (c : Char) : Bool := decide (48 ≤ c.toNat ∧ c.toNat ≤ 55)

/-- The number a run of octal digits stands for in base 8, after the digits read as `n`. -/
def octalValue (cs : List Char) (n : Nat) : Nat :=
  cs.foldl (fun acc c => acc * 8 + (c.toNat - 48)) n

/-! # Theorems -/

/-! ## Go maps: lookups and assignments -/

theorem index?_assign {α : Type} (m : GoMap α) (k : String) (v : α) (k' : String) :
    GoMap.index? (GoMap.assign m k v) k' = if k = k' then some v else GoMap.index? m k' := by
  induction m with
  | nil => simp [GoMap.assign, GoMap.index?]
  | cons e rest ih =>
    obtain ⟨a, b⟩ := e
    simp only [GoMap.assign]
    by_cases h : a = k
    · subst h
      simp only [if_true, GoMap.index?]
      by_cases h2 : a = k' <;> simp [h2]
    · simp only [h, if_false, GoMap.index?, ih]
      by_cases h2 : a = k'
      · subst h2
        have : ¬ k = a := fun e => h e.symm
        simp [this]
      · simp [h2]

theorem mem_keys_assign {α : Type} (m : GoMap α) (k : String) (v : α) (k' : String) :
    k' ∈ GoMap.keys (GoMap.assign m k v) ↔ k' = k ∨ k' ∈ GoMap.keys m := by
  induction m with
  | nil => simp [GoMap.assign, GoMap.keys]
  | cons e rest ih =>
    obtain ⟨a, b⟩ := e
    simp only [GoMap.assign]
    by_cases h : a = k
    · subst h
      simp [GoMap.keys]
    · simp only [h, if_false]
      simp only [GoMap.keys, List.map_cons, List.mem_cons] at ih ⊢
      rw [ih]
      tauto

theorem keys_assign_nodup {α : Type} (m : GoMap α) (k : String) (v : α)
    (h : (GoMap.keys m).Nodup) : (GoMap.keys (GoMap.assign m k v)).Nodup := by
  induction m with
  | nil => simp [GoMap.assign, GoMap.keys]
  | cons e rest ih =>
    obtain ⟨a, b⟩ := e
    simp only [GoMap.keys, List.map_cons, List.nodup_cons] at h
    simp only [GoMap.assign]
    by_cases hk : a = k
    · subst hk
      simpa [GoMap.keys] using h
    · simp only [hk, if_false]
      have h1 := ih h.2
      have h2 := mem_keys_assign rest k v a
      simp only [GoMap.keys, List.map_cons, List.nodup_cons]
      refine ⟨?_, h1⟩
      intro hmem
      rcases h2.1 hmem with h3 | h3
      · exact hk h3
      · exact h.1 h3

theorem index?_eq_none_iff {α : Type} (m : GoMap α) (k : String) :
    GoMap.index? m k = none ↔ k ∉ GoMap.keys m := by
  induction m with
  | nil => simp [GoMap.index?, GoMap.keys]
  | cons e rest ih =>
    obtain ⟨a, b⟩ := e
    simp only [GoMap.index?, GoMap.keys, List.map_cons, List.mem_cons, not_or]
    by_cases h : a = k
    · subst h
      simp
    · have h2 : ¬ k = a := fun e => h e.symm
      simp only [h, if_false, h2, not_false_eq_true, true_and]
      exact ih

theorem mem_iff_index? {α : Type} (m : GoMap α) (h : (GoMap.keys m).Nodup) (k : String)
    (v : α) : (k, v) ∈ m ↔ GoMap.index? m k = some v := by
  induction m with
  | nil => simp [GoMap.index?]
  | cons e rest ih =>
    obtain ⟨a, b⟩ := e
    simp only [GoMap.keys, List.map_cons, List.nodup_cons] at h
    simp only [List.mem_cons, Prod.mk.injEq, GoMap.index?]
    by_cases hk : a = k
    · subst hk
      simp only [true_and, if_true, Option.some.injEq]
      constructor
      · rintro (h1 | h1)
        · exact h1.symm
        · exact absurd (List.mem_map_of_mem Prod.fst h1) h.1
      · intro h1
        exact Or.inl h1.symm
    · have h2 : ¬ k = a := fun e => hk e.symm
      simp only [h2, false_and, false_or, hk, if_false]
      exact ih h.2

theorem assign_of_not_mem {α : Type} (m : GoMap α) (k : String) (v : α)
    (h : k ∉ GoMap.keys m) : GoMap.assign m k v = m ++ [(k, v)] := by
  induction m with
  | nil => simp [GoMap.assign]
  | cons e rest ih =>
    obtain ⟨a, b⟩ := e
    simp only [GoMap.keys, List.map_cons, List.mem_cons, not_or] at h
    have h2 : ¬ a = k := fun e => h.1 e.symm
    simp only [GoMap.assign, h2, if_false, List.cons_append, List.cons.injEq, true_and]
    exact ih h.2

/-! ## Runs of assignments -/

theorem underLabel_inj (k a b : String) (h : k ++ "." ++ a = k ++ "." ++ b) : a = b := by
  have h1 := congrArg String.data h
  simp only [String.data_append] at h1
  exact String.ext (List.append_cancel_left h1)

theorem mergePrefixed_eq (ret : GoMap String) (k : String) (sub : GoMap String) :
    mergePrefixed ret k sub = assignAll ret (sub.map (underLabel k)) := by
  simp [mergePrefixed, assignAll, List.foldl_map, underLabel]

theorem index?_assignAll (es : List (String × String)) (ret : GoMap String) (key : String) :
    GoMap.index? (assignAll ret es) key = (assocLast es key).or (GoMap.index? ret key) := by
  induction es generalizing ret with
  | nil => simp [assignAll, assocLast]
  | cons e rest ih =>
    obtain ⟨a, b⟩ := e
    have h := ih (GoMap.assign ret a b)
    simp only [assignAll, List.foldl_cons] at h ⊢
    rw [h, index?_assign]
    simp only [assocLast]
    cases assocLast rest key with
    | none => by_cases hk : a = key <;> simp [hk]
    | some w => simp

theorem keys_assignAll_nodup (es : List (String × String)) (ret : GoMap String)
    (h : (GoMap.keys ret).Nodup) : (GoMap.keys (assignAll ret es)).Nodup := by
  induction es generalizing ret with
  | nil => simpa [assignAll] using h
  | cons e rest ih =>
    simp only [assignAll, List.foldl_cons]
    exact ih _ (keys_assign_nodup ret e.1 e.2 h)

theorem assocLast_append (a b : List (String × String)) (key : String) :
    assocLast (a ++ b) key = (assocLast b key).or (assocLast a key) := by
  induction a with
  | nil => cases h : assocLast b key <;> simp [assocLast, h]
  | cons e rest ih =>
    obtain ⟨x, y⟩ := e
    have h1 : assocLast ((x, y) :: (rest ++ b)) key = (assocLast b key).or
        (assocLast ((x, y) :: rest) key) := by
      simp only [assocLast]
      rw [ih]
      cases assocLast b key with
      | none => simp
      | some w => simp
    exact h1

theorem assocLast_eq_none_iff (es : List (String × String)) (key : String) :
    assocLast es key = none ↔ key ∉ es.map Prod.fst := by
  induction es with
  | nil => simp [assocLast]
  | cons e rest ih =>
    obtain ⟨x, y⟩ := e
    simp only [assocLast, List.map_cons, List.mem_cons, not_or]
    cases h : assocLast rest key with
    | none =>
      have h1 := ih.1 h
      by_cases hk : x = key
      · subst hk
        simp
      · have h2 : ¬ key = x := fun e => hk e.symm
        simp [hk, h2, h1]
    | some w =>
      have h1 : ¬ key ∉ rest.map Prod.fst := fun hn => by
        rw [ih.2 hn] at h
        cases h
      constructor
      · intro h2
        cases h2
      · intro h2
        exact absurd h2.2 h1

theorem assocLast_of_nodup (m : GoMap String) (h : (GoMap.keys m).Nodup) (key : String) :
    assocLast m key = GoMap.index? m key := by
  induction m with
  | nil => simp [assocLast, GoMap.index?]
  | cons e rest ih =>
    obtain ⟨a, b⟩ := e
    simp only [GoMap.keys, List.map_cons, List.nodup_cons] at h
    simp only [assocLast, GoMap.index?, ih h.2]
    by_cases hk : a = key
    · subst hk
      have : GoMap.index? rest a = none := (index?_eq_none_iff rest a).2 h.1
      simp [this]
    · simp only [hk, if_false]
      cases GoMap.index? rest key <;> rfl

theorem assocLast_of_mem_nodup (es : List (String × String)) (h : (es.map Prod.fst).Nodup)
    (key value : String) (hmem : (key, value) ∈ es) : assocLast es key = some value := by
  rw [assocLast_of_nodup es h key]
  exact (mem_iff_index? es h key value).1 hmem

theorem assocLast_map_under (k : String) (es : List (String × String)) (fk : String) :
    assocLast (es.map (underLabel k)) (k ++ "." ++ fk) = assocLast es fk := by
  induction es with
  | nil => simp [assocLast]
  | cons e rest ih =>
    obtain ⟨a, b⟩ := e
    simp only [List.map_cons, underLabel, assocLast]
    simp only [underLabel] at ih
    rw [ih]
    by_cases hk : a = fk
    · subst hk
      simp
    · have : ¬ k ++ "." ++ a = k ++ "." ++ fk := fun e => hk (underLabel_inj k a fk e)
      simp [hk, this]

theorem assocLast_map_under_none (k : String) (es : List (String × String)) (key : String)
    (h : ∀ fk, key ≠ k ++ "." ++ fk) : assocLast (es.map (underLabel k)) key = none := by
  rw [assocLast_eq_none_iff]
  intro hmem
  simp only [List.map_map, List.mem_map, Function.comp, underLabel] at hmem
  obtain ⟨e, _, he⟩ := hmem
  exact h e.1 he.symm

theorem assocLast_map_congr (k : String) (a b : List (String × String))
    (h : ∀ fk, assocLast a fk = assocLast b fk) (key : String) :
    assocLast (a.map (underLabel k)) key = assocLast (b.map (underLabel k)) key := by
  by_cases hk : ∃ fk, key = k ++ "." ++ fk
  · obtain ⟨fk, rfl⟩ := hk
    rw [assocLast_map_under, assocLast_map_under, h]
  · have hk2 : ∀ fk, key ≠ k ++ "." ++ fk := fun fk e => hk ⟨fk, e⟩
    rw [assocLast_map_under_none k a key hk2, assocLast_map_under_none k b key hk2]

/-! ## `Flattens`: composing the steps of a loop -/

theorem Flattens.refl (ret : GoMap String) : Flattens ret ret [] :=
  ⟨fun h => h, fun key => by simp [assocLast]⟩

theorem Flattens.trans {out mid ret : GoMap String} {es1 es2 : List (String × String)}
    (h1 : Flattens mid ret es1) (h2 : Flattens out mid es2) :
    Flattens out ret (es1 ++ es2) := by
  refine ⟨fun h => h2.1 (h1.1 h), fun key => ?_⟩
  rw [h2.2 key, h1.2 key, assocLast_append]
  cases assocLast es2 key <;> simp

theorem Flattens.assign (ret : GoMap String) (k v : String) :
    Flattens (GoMap.assign ret k v) ret [(k, v)] := by
  refine ⟨keys_assign_nodup ret k v, fun key => ?_⟩
  rw [index?_assign]
  by_cases hk : k = key <;> simp [assocLast, hk]

theorem Flattens.merge {sub : GoMap String} {es : List (String × String)}
    (h : Flattens sub [] es) (ret : GoMap String) (k : String) :
    Flattens (mergePrefixed ret k sub) ret (es.map (underLabel k)) := by
  have hnd : (GoMap.keys sub).Nodup := h.1 (by simp [GoMap.keys])
  have hsub : ∀ fk, assocLast sub fk = assocLast es fk := fun fk => by
    rw [assocLast_of_nodup sub hnd, h.2 fk]
    simp [GoMap.index?]
  rw [mergePrefixed_eq]
  refine ⟨keys_assignAll_nodup _ ret, fun key => ?_⟩
  rw [index?_assignAll, assocLast_map_congr k sub es hsub]

theorem index?_perm {m m' : GoMap String} (hp : m.Perm m') (hnd : (GoMap.keys m).Nodup)
    (key : String) : GoMap.index? m key = GoMap.index? m' key := by
  have hnd' : (GoMap.keys m').Nodup := (hp.map Prod.fst).nodup_iff.1 hnd
  apply Option.ext
  intro v
  simp only [Option.mem_def]
  rw [← mem_iff_index? m hnd, ← mem_iff_index? m' hnd']
  exact hp.mem_iff

/-- The order in which the map returned by a recursive call is visited does not change what
a lookup in the merged map finds. -/
theorem mergePrefixed_order (ret : GoMap String) (k : String) (sub sub' : GoMap String)
    (hp : sub.Perm sub') (hnd : (GoMap.keys sub).Nodup) (key : String) :
    GoMap.index? (mergePrefixed ret k sub) key =
      GoMap.index? (mergePrefixed ret k sub') key := by
  have hnd' : (GoMap.keys sub').Nodup := (hp.map Prod.fst).nodup_iff.1 hnd
  rw [mergePrefixed_eq, mergePrefixed_eq, index?_assignAll, index?_assignAll]
  rw [assocLast_map_congr k sub sub' (fun fk => by
    rw [assocLast_of_nodup sub hnd, assocLast_of_nodup sub' hnd', index?_perm hp hnd])]

/-! ## Unfolding the loops -/

theorem flatten_eq (data : List (String × Value)) : flatten data = flattenRange data [] := by
  rw [flatten]

theorem flattenSlice_eq (data : List Value) :
    flattenSlice data = flattenSliceRange data 0 [] := by
  rw [flattenSlice]

theorem flattenRange_nil (ret : GoMap String) : flattenRange [] ret = some ret := by
  rw [flattenRange]

theorem flattenSliceRange_nil (idx : Nat) (ret : GoMap String) :
    flattenSliceRange [] idx ret = some ret := by
  rw [flattenSliceRange]

theorem flattenRange_cons (k : String) (v : Value) (rest : List (String × Value))
    (ret : GoMap String) :
    flattenRange ((k, v) :: rest) ret = (switchBody k v ret).bind (flattenRange rest) := by
  rw [flattenRange.eq_def]
  cases v with
  | null => simp [switchBody]
  | scalar s => simp [switchBody]
  | slice xs => simp only [switchBody]; cases flattenSlice xs <;> simp
  | strMap m => simp only [switchBody]; cases flatten m <;> simp
  | ifaceMap m =>
    simp only [switchBody]
    split
    · rename_i h
      simp [h]
    · rename_i converted h
      simp only [h]
      cases flatten converted <;> simp

theorem flattenSliceRange_cons (v : Value) (rest : List Value) (idx : Nat)
    (ret : GoMap String) :
    flattenSliceRange (v :: rest) idx ret =
      (switchBody (toString idx) v ret).bind (flattenSliceRange rest (idx + 1)) := by
  rw [flattenSliceRange.eq_def]
  cases v with
  | null => simp [switchBody]
  | scalar s => simp [switchBody]
  | slice xs => simp only [switchBody]; cases flattenSlice xs <;> simp
  | strMap m => simp only [switchBody]; cases flatten m <;> simp
  | ifaceMap m =>
    simp only [switchBody]
    split
    · rename_i h
      simp [h]
    · rename_i converted h
      simp only [h]
      cases flatten converted <;> simp

/-! ## Leaves and labels -/

theorem leavesM_path_ne_nil (m : List (String × Value)) :
    ∀ e ∈ leavesM m, e.1 ≠ [] := by
  induction m with
  | nil => simp [leavesM]
  | cons x rest ih =>
    obtain ⟨k, v⟩ := x
    intro e he
    simp only [leavesM, List.mem_append, List.mem_map] at he
    rcases he with ⟨e', _, rfl⟩ | he
    · simp
    · exact ih e he

theorem leavesI_path_ne_nil (m : List (Scalar × Value)) :
    ∀ e ∈ leavesI m, e.1 ≠ [] := by
  induction m with
  | nil => simp [leavesI]
  | cons x rest ih =>
    obtain ⟨k, v⟩ := x
    intro e he
    simp only [leavesI, List.mem_append, List.mem_map] at he
    rcases he with ⟨e', _, rfl⟩ | he
    · simp
    · exact ih e he

theorem leavesL_path_ne_nil (xs : List Value) (idx : Nat) :
    ∀ e ∈ leavesL xs idx, e.1 ≠ [] := by
  induction xs generalizing idx with
  | nil => simp [leavesL]
  | cons v rest ih =>
    intro e he
    simp only [leavesL, List.mem_append, List.mem_map] at he
    rcases he with ⟨e', _, rfl⟩ | he
    · simp
    · exact ih (idx + 1) e he

theorem dotJoin_cons (k : String) (p : List String) (h : p ≠ []) :
    dotJoin (k :: p) = k ++ "." ++ dotJoin p := by
  cases p with
  | nil => exact absurd rfl h
  | cons t rest => simp [dotJoin]

theorem flatOf_label (k : String) (ls : List (List String × Leaf))
    (h : ∀ e ∈ ls, e.1 ≠ []) :
    flatOf (ls.map (fun e => (k :: e.1, e.2))) = (flatOf ls).map (underLabel k) := by
  simp only [flatOf, List.map_map]
  apply List.map_congr_left
  intro e he
  simp [underLabel, dotJoin_cons k e.1 (h e he)]

theorem flatOf_append (a b : List (List String × Leaf)) :
    flatOf (a ++ b) = flatOf a ++ flatOf b := by
  simp [flatOf]

/-! ## Maps with string keys only -/

theorem leavesM_coerceKeys (m : List (Scalar × Value)) :
    leavesM (coerceKeys m) = leavesI m := by
  induction m with
  | nil => simp [coerceKeys, leavesM, leavesI]
  | cons x rest ih =>
    obtain ⟨k, v⟩ := x
    simp only [coerceKeys, List.map_cons, leavesM, leavesI] at ih ⊢
    rw [ih]

theorem sizeM_coerceKeys (m : List (Scalar × Value)) : sizeM (coerceKeys m) = sizeI m := by
  induction m with
  | nil => simp [coerceKeys, sizeM, sizeI]
  | cons x rest ih =>
    obtain ⟨k, v⟩ := x
    simp only [coerceKeys, List.map_cons, sizeM, sizeI] at ih ⊢
    rw [ih]

theorem stringKeyedM_coerceKeys (m : List (Scalar × Value)) (h : stringKeyedI m = true) :
    stringKeyedM (coerceKeys m) = true := by
  induction m with
  | nil => simp [coerceKeys, stringKeyedM]
  | cons x rest ih =>
    obtain ⟨k, v⟩ := x
    simp only [stringKeyedI, Bool.and_eq_true] at h
    simp only [coerceKeys, List.map_cons, stringKeyedM, Bool.and_eq_true] at ih ⊢
    exact ⟨h.1.2, ih h.2⟩

theorem stringKeyedI_keys (m : List (Scalar × Value)) (h : stringKeyedI m = true) :
    ∀ e ∈ m, ∃ s, e.1 = Scalar.str s := by
  induction m with
  | nil => simp
  | cons x rest ih =>
    obtain ⟨k, v⟩ := x
    simp only [stringKeyedI, Bool.and_eq_true] at h
    intro e he
    rcases List.mem_cons.1 he with rfl | he
    · cases k with
      | str s => exact ⟨s, rfl⟩
      | bool b => simp [isStr] at h
      | int i => simp [isStr] at h
    · exact ih h.2 e he

theorem keys_coerceKeys_nodup (m : List (Scalar × Value))
    (hk : ∀ e ∈ m, ∃ s, e.1 = Scalar.str s) (hnd : (m.map Prod.fst).Nodup) :
    (GoMap.keys (coerceKeys m)).Nodup := by
  have : GoMap.keys (coerceKeys m) = (m.map Prod.fst).map sprint := by
    simp [GoMap.keys, coerceKeys, List.map_map, Function.comp]
  rw [this]
  refine List.Nodup.map_on ?_ hnd
  intro a ha b hb hab
  obtain ⟨ea, hea, rfl⟩ := List.mem_map.1 ha
  obtain ⟨eb, heb, rfl⟩ := List.mem_map.1 hb
  obtain ⟨sa, hsa⟩ := hk ea hea
  obtain ⟨sb, hsb⟩ := hk eb heb
  rw [hsa, hsb] at hab ⊢
  simp only [sprint] at hab
  rw [hab]

theorem convertMapRange_strings (m : List (Scalar × Value)) (acc : GoMap Value)
    (hk : ∀ e ∈ m, ∃ s, e.1 = Scalar.str s)
    (hnd : (GoMap.keys (acc ++ coerceKeys m)).Nodup) :
    convertMapRange m acc = some (acc ++ coerceKeys m) := by
  induction m generalizing acc with
  | nil => simp [convertMapRange, coerceKeys]
  | cons x rest ih =>
    obtain ⟨k, v⟩ := x
    obtain ⟨s, hs⟩ := hk (k, v) (List.mem_cons_self _ _)
    simp only at hs
    subst hs
    simp only [convertMapRange]
    have hs : s ∉ GoMap.keys acc := by
      simp only [GoMap.keys, coerceKeys, List.map_append, List.map_cons, sprint] at hnd
      have := (List.nodup_append.1 hnd).2.2
      intro hmem
      exact this hmem (List.mem_cons_self _ _)
    rw [assign_of_not_mem acc s v hs]
    have hnd2 : (GoMap.keys ((acc ++ [(s, v)]) ++ coerceKeys rest)).Nodup := by
      simpa [coerceKeys, sprint] using hnd
    rw [ih _ (fun e he => hk e (List.mem_cons_of_mem _ he)) hnd2]
    simp [coerceKeys, sprint]

/-- On a map whose keys are strings, `convertMap` returns the same entries. -/
theorem convertMap_strings (m : List (Scalar × Value))
    (hk : ∀ e ∈ m, ∃ s, e.1 = Scalar.str s) (hnd : (m.map Prod.fst).Nodup) :
    convertMap m = some (coerceKeys m) := by
  have := convertMapRange_strings m [] hk (by simpa using keys_coerceKeys_nodup m hk hnd)
  simpa [convertMap] using this

theorem convertMap_stringKeyed (m : List (Scalar × Value)) (h : stringKeyedI m = true)
    (hnd : (m.map Prod.fst).Nodup) : convertMap m = some (coerceKeys m) :=
  convertMap_strings m (stringKeyedI_keys m h) hnd

/-! ## The loops compute the flat entries of the leaves -/

theorem switchBody_spec (n : Nat) (ih : LoopsUpTo n) (v : Value) (hsize : sizeV v ≤ n)
    (hkeys : stringKeyedV v = true) (k : String) (ret : GoMap String) :
    ∃ mid, switchBody k v ret = some mid ∧
      Flattens mid ret (flatOf ((leavesV v).map (fun e => (k :: e.1, e.2)))) := by
  cases v with
  | null =>
    refine ⟨_, rfl, ?_⟩
    simpa [leavesV, flatOf, dotJoin, leafText] using Flattens.assign ret k "null"
  | scalar s =>
    refine ⟨_, rfl, ?_⟩
    simpa [leavesV, flatOf, dotJoin, leafText] using Flattens.assign ret k (sprint s)
  | slice xs =>
    simp only [sizeV] at hsize
    simp only [stringKeyedV] at hkeys
    obtain ⟨sub, hsub, hfl⟩ := ih.2 xs (by omega) hkeys 0 []
    refine ⟨mergePrefixed ret k sub, ?_, ?_⟩
    · simp [switchBody, flattenSlice_eq, hsub]
    · simp only [leavesV]
      rw [flatOf_label k _ (leavesL_path_ne_nil xs 0)]
      exact Flattens.merge hfl ret k
  | strMap m =>
    simp only [sizeV] at hsize
    simp only [stringKeyedV] at hkeys
    obtain ⟨sub, hsub, hfl⟩ := ih.1 m (by omega) hkeys []
    refine ⟨mergePrefixed ret k sub, ?_, ?_⟩
    · simp [switchBody, flatten_eq, hsub]
    · simp only [leavesV]
      rw [flatOf_label k _ (leavesM_path_ne_nil m)]
      exact Flattens.merge hfl ret k
  | ifaceMap m =>
    simp only [sizeV] at hsize
    simp only [stringKeyedV, Bool.and_eq_true, decide_eq_true_eq] at hkeys
    have hconv := convertMap_stringKeyed m hkeys.1 hkeys.2
    obtain ⟨sub, hsub, hfl⟩ := ih.1 (coerceKeys m) (by rw [sizeM_coerceKeys]; omega)
      (stringKeyedM_coerceKeys m hkeys.1) []
    refine ⟨mergePrefixed ret k sub, ?_, ?_⟩
    · simp [switchBody, hconv, flatten_eq, hsub]
    · simp only [leavesV]
      rw [flatOf_label k _ (leavesI_path_ne_nil m)]
      rw [leavesM_coerceKeys] at hfl
      exact Flattens.merge hfl ret k

theorem loops_spec : ∀ n, LoopsUpTo n := by
  intro n
  induction n with
  | zero =>
    constructor
    · intro data hsize _ ret
      cases data with
      | nil => exact ⟨ret, flattenRange_nil ret, by simpa [leavesM, flatOf] using Flattens.refl ret⟩
      | cons x rest =>
        obtain ⟨k, v⟩ := x
        simp only [sizeM] at hsize
        omega
    · intro xs hsize _ idx ret
      cases xs with
      | nil =>
        exact ⟨ret, flattenSliceRange_nil idx ret,
          by simpa [leavesL, flatOf] using Flattens.refl ret⟩
      | cons v rest =>
        simp only [sizeL] at hsize
        omega
  | succ n ih =>
    constructor
    · intro data
      induction data with
      | nil =>
        intro _ _ ret
        exact ⟨ret, flattenRange_nil ret, by simpa [leavesM, flatOf] using Flattens.refl ret⟩
      | cons x rest ihrest =>
        obtain ⟨k, v⟩ := x
        intro hsize hkeys ret
        simp only [sizeM] at hsize
        simp only [stringKeyedM, Bool.and_eq_true] at hkeys
        obtain ⟨mid, hmid, hfl1⟩ := switchBody_spec n ih v (by omega) hkeys.1 k ret
        obtain ⟨out, hout, hfl2⟩ := ihrest (by omega) hkeys.2 mid
        refine ⟨out, ?_, ?_⟩
        · rw [flattenRange_cons, hmid]
          exact hout
        · simp only [leavesM, flatOf_append]
          exact Flattens.trans hfl1 hfl2
    · intro xs
      induction xs with
      | nil =>
        intro _ _ idx ret
        exact ⟨ret, flattenSliceRange_nil idx ret,
          by simpa [leavesL, flatOf] using Flattens.refl ret⟩
      | cons v rest ihrest =>
        intro hsize hkeys idx ret
        simp only [sizeL] at hsize
        simp only [stringKeyedL, Bool.and_eq_true] at hkeys
        obtain ⟨mid, hmid, hfl1⟩ :=
          switchBody_spec n ih v (by omega) hkeys.1 (toString idx) ret
        obtain ⟨out, hout, hfl2⟩ := ihrest (by omega) hkeys.2 (idx + 1) mid
        refine ⟨out, ?_, ?_⟩
        · rw [flattenSliceRange_cons, hmid]
          exact hout
        · simp only [leavesL, flatOf_append]
          exact Flattens.trans hfl1 hfl2

/-- On a tree whose mappings have string keys, `flatten` returns, and a lookup in what it
returns finds the last flat entry of the leaves under that key. -/
theorem flatten_spec (data : List (String × Value)) (h : stringKeyedM data = true) :
    ∃ out, flatten data = some out ∧ (GoMap.keys out).Nodup ∧
      ∀ key, GoMap.index? out key = assocLast (flatOf (leavesM data)) key := by
  obtain ⟨out, hout, hfl⟩ := (loops_spec (sizeM data)).1 data (le_refl _) h []
  refine ⟨out, by rw [flatten_eq]; exact hout, hfl.1 (by simp [GoMap.keys]), fun key => ?_⟩
  rw [hfl.2 key]
  simp [GoMap.index?]

theorem flatOf_keys (data : List (String × Value)) :
    (flatOf (leavesM data)).map Prod.fst = leafPaths data := by
  simp [flatOf, leafPaths, List.map_map, Function.comp]

/-- With pairwise distinct leaf paths, the entries of the result are the flat entries of the
leaves. -/
theorem flatten_spec_distinct (data : List (String × Value)) (h : stringKeyedM data = true)
    (hd : (leafPaths data).Nodup) :
    ∃ out, flatten data = some out ∧ (GoMap.keys out).Nodup ∧
      ∀ key value, (key, value) ∈ out ↔ (key, value) ∈ flatOf (leavesM data) := by
  obtain ⟨out, hout, hnd, hidx⟩ := flatten_spec data h
  refine ⟨out, hout, hnd, fun key value => ?_⟩
  have hE : (GoMap.keys (flatOf (leavesM data))).Nodup := by
    simpa [GoMap.keys, flatOf_keys] using hd
  rw [mem_iff_index? out hnd, hidx, assocLast_of_nodup _ hE,
    ← mem_iff_index? (flatOf (leavesM data)) hE]

/-! ## Reordering the entries of the mappings -/

theorem leavesM_append (a b : List (String × Value)) :
    leavesM (a ++ b) = leavesM a ++ leavesM b := by
  induction a with
  | nil => simp [leavesM]
  | cons x rest ih =>
    obtain ⟨k, v⟩ := x
    rw [List.cons_append, leavesM, leavesM, ih, List.append_assoc]

theorem leavesI_append (a b : List (Scalar × Value)) :
    leavesI (a ++ b) = leavesI a ++ leavesI b := by
  induction a with
  | nil => simp [leavesI]
  | cons x rest ih =>
    obtain ⟨k, v⟩ := x
    rw [List.cons_append, leavesI, leavesI, ih, List.append_assoc]

theorem stringKeyedM_append (a b : List (String × Value)) :
    stringKeyedM (a ++ b) = (stringKeyedM a && stringKeyedM b) := by
  induction a with
  | nil => simp [stringKeyedM]
  | cons x rest ih =>
    obtain ⟨k, v⟩ := x
    rw [List.cons_append, stringKeyedM, stringKeyedM, ih, Bool.and_assoc]

theorem stringKeyedI_append (a b : List (Scalar × Value)) :
    stringKeyedI (a ++ b) = (stringKeyedI a && stringKeyedI b) := by
  induction a with
  | nil => simp [stringKeyedI]
  | cons x rest ih =>
    obtain ⟨k, v⟩ := x
    rw [List.cons_append, stringKeyedI, stringKeyedI, ih]
    simp only [Bool.and_assoc]

theorem reorderI_keys (m : List (Scalar × Value)) :
    ∀ m', reorderI m m' → (m'.map Prod.fst).Perm (m.map Prod.fst) := by
  induction m with
  | nil =>
    intro m' h
    simp only [reorderI] at h
    subst h
    exact List.Perm.refl _
  | cons x rest ih =>
    obtain ⟨k, v⟩ := x
    intro m' h
    simp only [reorderI] at h
    obtain ⟨v', l, r, rfl, _, h2⟩ := h
    have h3 := ih _ h2
    simp only [List.map_append, List.map_cons] at h3 ⊢
    exact List.Perm.trans List.perm_middle (List.Perm.cons k h3)

mutual
theorem reorderV_refl : ∀ v : Value, reorderV v v
  | .null => by simp [reorderV]
  | .scalar s => by simp [reorderV]
  | .slice xs => by
    simp only [reorderV]
    exact ⟨xs, rfl, reorderL_refl xs⟩
  | .strMap m => by
    simp only [reorderV]
    exact ⟨m, rfl, reorderM_refl m⟩
  | .ifaceMap m => by
    simp only [reorderV]
    exact ⟨m, rfl, reorderI_refl m⟩
theorem reorderL_refl : ∀ xs : List Value, reorderL xs xs
  | [] => by simp [reorderL]
  | x :: xs => by
    simp only [reorderL]
    exact ⟨x, xs, rfl, reorderV_refl x, reorderL_refl xs⟩
theorem reorderM_refl : ∀ m : List (String × Value), reorderM m m
  | [] => by simp [reorderM]
  | (k, v) :: rest => by
    simp only [reorderM]
    exact ⟨v, [], rest, rfl, reorderV_refl v, reorderM_refl rest⟩
theorem reorderI_refl : ∀ m : List (Scalar × Value), reorderI m m
  | [] => by simp [reorderI]
  | (k, v) :: rest => by
    simp only [reorderI]
    exact ⟨v, [], rest, rfl, reorderV_refl v, reorderI_refl rest⟩
end

mutual
theorem reorderV_leaves : ∀ (v w : Value), reorderV v w → (leavesV w).Perm (leavesV v)
  | .null, w, h => by
    simp only [reorderV] at h
    subst h
    exact List.Perm.refl _
  | .scalar s, w, h => by
    simp only [reorderV] at h
    subst h
    exact List.Perm.refl _
  | .slice xs, w, h => by
    simp only [reorderV] at h
    obtain ⟨ys, rfl, h2⟩ := h
    simp only [leavesV]
    exact reorderL_leaves xs ys 0 h2
  | .strMap m, w, h => by
    simp only [reorderV] at h
    obtain ⟨m', rfl, h2⟩ := h
    simp only [leavesV]
    exact reorderM_leaves m m' h2
  | .ifaceMap m, w, h => by
    simp only [reorderV] at h
    obtain ⟨m', rfl, h2⟩ := h
    simp only [leavesV]
    exact reorderI_leaves m m' h2
theorem reorderL_leaves : ∀ (xs ys : List Value) (idx : Nat), reorderL xs ys →
    (leavesL ys idx).Perm (leavesL xs idx)
  | [], ys, idx, h => by
    simp only [reorderL] at h
    subst h
    exact List.Perm.refl _
  | x :: xs, ys, idx, h => by
    simp only [reorderL] at h
    obtain ⟨y, ys', rfl, h1, h2⟩ := h
    simp only [leavesL]
    exact List.Perm.append ((reorderV_leaves x y h1).map _)
      (reorderL_leaves xs ys' (idx + 1) h2)
theorem reorderM_leaves : ∀ (m m' : List (String × Value)), reorderM m m' →
    (leavesM m').Perm (leavesM m)
  | [], m', h => by
    simp only [reorderM] at h
    subst h
    exact List.Perm.refl _
  | (k, v) :: rest, m', h => by
    simp only [reorderM] at h
    obtain ⟨v', l, r, rfl, h1, h2⟩ := h
    have ih1 := reorderV_leaves v v' h1
    have ih2 := reorderM_leaves rest (l ++ r) h2
    rw [leavesM_append] at ih2 ⊢
    simp only [leavesM]
    refine List.Perm.trans ?_ (List.Perm.append (ih1.map _) ih2)
    exact List.perm_append_comm_assoc _ _ _
theorem reorderI_leaves : ∀ (m m' : List (Scalar × Value)), reorderI m m' →
    (leavesI m').Perm (leavesI m)
  | [], m', h => by
    simp only [reorderI] at h
    subst h
    exact List.Perm.refl _
  | (k, v) :: rest, m', h => by
    simp only [reorderI] at h
    obtain ⟨v', l, r, rfl, h1, h2⟩ := h
    have ih1 := reorderV_leaves v v' h1
    have ih2 := reorderI_leaves rest (l ++ r) h2
    rw [leavesI_append] at ih2 ⊢
    simp only [leavesI]
    refine List.Perm.trans ?_ (List.Perm.append (ih1.map _) ih2)
    exact List.perm_append_comm_assoc _ _ _
end

mutual
theorem reorderV_stringKeyed : ∀ (v w : Value), reorderV v w → stringKeyedV v = true →
    stringKeyedV w = true
  | .null, w, h, hk => by
    simp only [reorderV] at h
    subst h
    exact hk
  | .scalar s, w, h, hk => by
    simp only [reorderV] at h
    subst h
    exact hk
  | .slice xs, w, h, hk => by
    simp only [reorderV] at h
    obtain ⟨ys, rfl, h2⟩ := h
    simp only [stringKeyedV] at hk ⊢
    exact reorderL_stringKeyed xs ys h2 hk
  | .strMap m, w, h, hk => by
    simp only [reorderV] at h
    obtain ⟨m', rfl, h2⟩ := h
    simp only [stringKeyedV] at hk ⊢
    exact reorderM_stringKeyed m m' h2 hk
  | .ifaceMap m, w, h, hk => by
    simp only [reorderV] at h
    obtain ⟨m', rfl, h2⟩ := h
    simp only [stringKeyedV, Bool.and_eq_true, decide_eq_true_eq] at hk ⊢
    exact ⟨reorderI_stringKeyed m m' h2 hk.1, (reorderI_keys m m' h2).nodup_iff.2 hk.2⟩
theorem reorderL_stringKeyed : ∀ (xs ys : List Value), reorderL xs ys →
    stringKeyedL xs = true → stringKeyedL ys = true
  | [], ys, h, hk => by
    simp only [reorderL] at h
    subst h
    exact hk
  | x :: xs, ys, h, hk => by
    simp only [reorderL] at h
    obtain ⟨y, ys', rfl, h1, h2⟩ := h
    simp only [stringKeyedL, Bool.and_eq_true] at hk ⊢
    exact ⟨reorderV_stringKeyed x y h1 hk.1, reorderL_stringKeyed xs ys' h2 hk.2⟩
theorem reorderM_stringKeyed : ∀ (m m' : List (String × Value)), reorderM m m' →
    stringKeyedM m = true → stringKeyedM m' = true
  | [], m', h, hk => by
    simp only [reorderM] at h
    subst h
    exact hk
  | (k, v) :: rest, m', h, hk => by
    simp only [reorderM] at h
    obtain ⟨v', l, r, rfl, h1, h2⟩ := h
    simp only [stringKeyedM, Bool.and_eq_true] at hk
    have ih1 := reorderV_stringKeyed v v' h1 hk.1
    have ih2 := reorderM_stringKeyed rest (l ++ r) h2 hk.2
    rw [stringKeyedM_append, Bool.and_eq_true] at ih2
    rw [stringKeyedM_append, stringKeyedM, Bool.and_eq_true, Bool.and_eq_true]
    exact ⟨ih2.1, ih1, ih2.2⟩
theorem reorderI_stringKeyed : ∀ (m m' : List (Scalar × Value)), reorderI m m' →
    stringKeyedI m = true → stringKeyedI m' = true
  | [], m', h, hk => by
    simp only [reorderI] at h
    subst h
    exact hk
  | (k, v) :: rest, m', h, hk => by
    simp only [reorderI] at h
    obtain ⟨v', l, r, rfl, h1, h2⟩ := h
    simp only [stringKeyedI, Bool.and_eq_true] at hk
    have ih1 := reorderV_stringKeyed v v' h1 hk.1.2
    have ih2 := reorderI_stringKeyed rest (l ++ r) h2 hk.2
    rw [stringKeyedI_append, Bool.and_eq_true] at ih2
    rw [stringKeyedI_append, stringKeyedI, Bool.and_eq_true, Bool.and_eq_true,
      Bool.and_eq_true]
    exact ⟨ih2.1, ⟨hk.1.1, ih1⟩, ih2.2⟩
end

/-! ## Claims about `flatten` -/

/-- C3, counterexample: the tree `{"a": {"b": 1}, "a.b": 2}` has string keys, pairwise
distinct at every level, and two leaves, and `flatten` returns a map with the single entry
`a.b`. -/
theorem flatten_shape_counterexample :
    stringKeyedM collidingTree = true ∧ leafCount collidingTree = 2 ∧
      leafPaths collidingTree = ["a.b", "a.b"] ∧
      flatten collidingTree = some [("a.b", "2")] := by
  refine ⟨by decide, by decide, by decide, ?_⟩
  simp [collidingTree, flatten_eq, flattenRange_cons, flattenRange_nil, switchBody,
    mergePrefixed, GoMap.assign, sprint]
  decide

/-- C3, amended: on a tree whose mappings have string keys only, `flatten` returns a map
with pairwise distinct keys; its keys are exactly the dot-joined paths of the leaves (mapping
keys and zero-based list indices from the root down); it has at most as many entries as the
tree has leaves, and exactly as many when the leaf paths are pairwise distinct: its entries
are then the leaves, each under its path and as its text. -/
theorem flatten_shape (data : List (String × Value)) (hkeys : stringKeyedM data = true) :
    ∃ out, flatten data = some out ∧ (GoMap.keys out).Nodup ∧
      (∀ key, key ∈ GoMap.keys out ↔ key ∈ leafPaths data) ∧
      out.length ≤ leafCount data ∧
      ((leafPaths data).Nodup → out.length = leafCount data ∧
        ∀ key value, (key, value) ∈ out ↔
          ∃ path leaf, (path, leaf) ∈ leavesM data ∧ dotJoin path = key ∧
            leafText leaf = value) := by
  obtain ⟨out, hout, hnd, hidx⟩ := flatten_spec data hkeys
  have hmem : ∀ key, key ∈ GoMap.keys out ↔ key ∈ leafPaths data := by
    intro key
    have h1 := index?_eq_none_iff out key
    have h2 := assocLast_eq_none_iff (flatOf (leavesM data)) key
    rw [flatOf_keys] at h2
    rw [hidx key] at h1
    constructor
    · intro h
      by_contra hn
      exact (h1.1 (h2.2 hn)) h
    · intro h
      by_contra hn
      exact (h2.1 (h1.2 hn)) h
  have hlen : out.length = (GoMap.keys out).length := by simp [GoMap.keys]
  have hcount : leafCount data = (leafPaths data).length := by simp [leafCount, leafPaths]
  refine ⟨out, hout, hnd, hmem, ?_, ?_⟩
  · rw [hlen, hcount]
    exact (List.subperm_of_subset hnd (fun key h => (hmem key).1 h)).length_le
  · intro hd
    refine ⟨?_, fun key value => ?_⟩
    · rw [hlen, hcount]
      exact ((List.perm_ext_iff_of_nodup hnd hd).2 hmem).length_eq
    · obtain ⟨out', hout', _, hmem'⟩ := flatten_spec_distinct data hkeys hd
      rw [hout] at hout'
      cases hout'
      rw [hmem' key value]
      simp only [flatOf, List.mem_map, Prod.mk.injEq, Prod.exists]

/-- C3, witness: the amended statement at `{"a": {"b": [1, 2]}, "x": null, "m": {"k": true},
"s": "v"}`. -/
theorem flatten_shape_witness :
    stringKeyedM sampleTree = true ∧
      ∃ out, flatten sampleTree = some out ∧ (GoMap.keys out).Nodup ∧
        (∀ key, key ∈ GoMap.keys out ↔ key ∈ leafPaths sampleTree) ∧
        out.length ≤ leafCount sampleTree ∧
        ((leafPaths sampleTree).Nodup → out.length = leafCount sampleTree ∧
          ∀ key value, (key, value) ∈ out ↔
            ∃ path leaf, (path, leaf) ∈ leavesM sampleTree ∧ dotJoin path = key ∧
              leafText leaf = value) :=
  ⟨by decide, flatten_shape sampleTree (by decide)⟩

/-- Where no key fails the assertion of `convertMap`: on a tree whose mappings have string
keys and whose leaf paths are pairwise distinct, `flatten` returns a map that holds, under the dot-joined path of every leaf (at any
depth, under a mapping key or in a list), the text `null` for a null leaf, `true` or `false`
for a boolean, the decimal numeral for an integer and the string itself for a string. -/
theorem flatten_leaf_values (data : List (String × Value))
    (hkeys : stringKeyedM data = true) (hdistinct : (leafPaths data).Nodup) :
    ∃ out, flatten data = some out ∧
      ∀ path leaf, (path, leaf) ∈ leavesM data →
        GoMap.index? out (dotJoin path) = some
          (match leaf with
            | none => "null"
            | some (.bool true) => "true"
            | some (.bool false) => "false"
            | some (.int i) => toString i
            | some (.str s) => s) := by
  obtain ⟨out, hout, hnd, hmem⟩ := flatten_spec_distinct data hkeys hdistinct
  refine ⟨out, hout, fun path leaf hleaf => ?_⟩
  have h1 : (dotJoin path, leafText leaf) ∈ flatOf (leavesM data) :=
    List.mem_map.2 ⟨(path, leaf), hleaf, rfl⟩
  have h2 := (mem_iff_index? out hnd _ _).1 ((hmem _ _).2 h1)
  rw [h2]
  cases leaf with
  | none => rfl
  | some s =>
    cases s with
    | bool b => cases b <;> rfl
    | int i => rfl
    | str s => rfl

/-- The leaf values at `{"a": {"b": [1, 2]}, "x": null, "m": {"k": true},
"s": "v"}`, and the instance `flatten({"x": null}) = {"x": "null"}`. -/
theorem flatten_leaf_values_witness :
    (stringKeyedM sampleTree = true ∧ (leafPaths sampleTree).Nodup ∧
      ∃ out, flatten sampleTree = some out ∧
        ∀ path leaf, (path, leaf) ∈ leavesM sampleTree →
          GoMap.index? out (dotJoin path) = some
            (match leaf with
              | none => "null"
              | some (.bool true) => "true"
              | some (.bool false) => "false"
              | some (.int i) => toString i
              | some (.str s) => s)) ∧
      flatten [("x", Value.null)] = some [("x", "null")] := by
  refine ⟨⟨by decide, by decide, flatten_leaf_values sampleTree (by decide) (by decide)⟩, ?_⟩
  simp [flatten_eq, flattenRange_cons, flattenRange_nil, switchBody, GoMap.assign]

/-- C10, counterexample: the map `{"a": {"b": 1}, "a.b": 2}` flattens to `{"a.b": "2"}` when
its entry `a` is visited first and to `{"a.b": "1"}` when its entry `a.b` is visited first. -/
theorem flatten_order_counterexample :
    reorderM collidingTree collidingTreeSwapped ∧
      flatten collidingTree = some [("a.b", "2")] ∧
      flatten collidingTreeSwapped = some [("a.b", "1")] := by
  refine ⟨?_, ?_, ?_⟩
  · simp only [collidingTree, collidingTreeSwapped, reorderM]
    refine ⟨_, [("a.b", .scalar (.int 2))], [], rfl, reorderV_refl _, ?_⟩
    exact ⟨_, [], [], rfl, reorderV_refl _, rfl⟩
  · simp [collidingTree, flatten_eq, flattenRange_cons, flattenRange_nil, switchBody,
      mergePrefixed, GoMap.assign, sprint]
    decide
  · simp [collidingTreeSwapped, flatten_eq, flattenRange_cons, flattenRange_nil, switchBody,
      mergePrefixed, GoMap.assign, sprint]
    decide

/-- C10, amended: on a tree whose mappings have string keys and whose leaf paths are
pairwise distinct, `flatten` returns the same set of (path, value) entries for any two orders
in which the entries of its mappings, at every level, are visited. -/
theorem flatten_order_independent (data data' : List (String × Value))
    (horder : reorderM data data') (hkeys : stringKeyedM data = true)
    (hdistinct : (leafPaths data).Nodup) :
    ∃ out out', flatten data = some out ∧ flatten data' = some out' ∧
      (∀ key value, (key, value) ∈ out ↔ (key, value) ∈ out') ∧ out.Perm out' := by
  obtain ⟨out, hout, hnd, hmem⟩ := flatten_spec_distinct data hkeys hdistinct
  have hkeys' := reorderM_stringKeyed data data' horder hkeys
  have hperm := reorderM_leaves data data' horder
  have hdistinct' : (leafPaths data').Nodup := by
    have h := hperm.map (fun e => dotJoin e.1)
    exact h.nodup_iff.2 hdistinct
  obtain ⟨out', hout', hnd', hmem'⟩ := flatten_spec_distinct data' hkeys' hdistinct'
  have hflat : (flatOf (leavesM data')).Perm (flatOf (leavesM data)) := hperm.map _
  have hsame : ∀ key value, (key, value) ∈ out ↔ (key, value) ∈ out' := by
    intro key value
    rw [hmem, hmem']
    exact (hflat.mem_iff).symm
  refine ⟨out, out', hout, hout', hsame, ?_⟩
  refine (List.perm_ext_iff_of_nodup (List.Nodup.of_map Prod.fst hnd)
    (List.Nodup.of_map Prod.fst hnd')).2 ?_
  rintro ⟨key, value⟩
  exact hsame key value

/-- C10, witness: the amended statement at `{"a": {"b": 1, "c": 2}, "d": 3}` and the same
tree with the entries of both mappings in the other order. -/
theorem flatten_order_independent_witness :
    reorderM orderedTree orderedTreeSwapped ∧ stringKeyedM orderedTree = true ∧
      (leafPaths orderedTree).Nodup ∧
      ∃ out out', flatten orderedTree = some out ∧ flatten orderedTreeSwapped = some out' ∧
        (∀ key value, (key, value) ∈ out ↔ (key, value) ∈ out') ∧ out.Perm out' := by
  have horder : reorderM orderedTree orderedTreeSwapped := by
    simp only [orderedTree, orderedTreeSwapped, reorderM]
    refine ⟨.strMap [("c", .scalar (.int 2)), ("b", .scalar (.int 1))],
      [("d", .scalar (.int 3))], [], rfl, ?_, ?_⟩
    · simp only [reorderV, reorderM]
      refine ⟨_, rfl, ?_⟩
      refine ⟨_, [("c", .scalar (.int 2))], [], rfl, rfl, ?_⟩
      exact ⟨_, [], [], rfl, rfl, rfl⟩
    · exact ⟨_, [], [], rfl, reorderV_refl _, rfl⟩
  exact ⟨horder, by decide, by decide,
    flatten_order_independent orderedTree orderedTreeSwapped horder (by decide) (by decide)⟩

/-! ## `flattenFromKey` -/

theorem flatten_single (k : String) (v : Value) : flatten [(k, v)] = switchBody k v [] := by
  rw [flatten_eq, flattenRange_cons]
  cases switchBody k v [] with
  | none => rfl
  | some out => simp [flattenRange_nil]

theorem flattenFromKey_of_value (data : List (String × Value)) (k : String)
    (h : indexOrNil data k ≠ Value.null) :
    flattenFromKey data k =
      (switchBody k (indexOrNil data k) []).map (fun out => (out, none)) := by
  unfold flattenFromKey
  cases hv : indexOrNil data k with
  | null => exact absurd hv h
  | scalar s => simp [switchBody]
  | slice xs => simp only [switchBody]; cases flattenSlice xs <;> simp
  | strMap m => simp only [switchBody]; cases flatten m <;> simp
  | ifaceMap m =>
    simp only [switchBody]
    cases convertMap m with
    | none => simp
    | some converted => simp only []; cases flatten converted <;> simp

theorem mem_keys_assignAll (es : List (String × String)) (key : String)
    (h : key ∈ GoMap.keys (assignAll [] es)) : key ∈ es.map Prod.fst := by
  by_contra hn
  have h1 := index?_assignAll es [] key
  rw [(assocLast_eq_none_iff es key).2 hn] at h1
  simp only [GoMap.index?, Option.or] at h1
  exact ((index?_eq_none_iff _ key).1 h1) h

theorem switchBody_keys (k : String) (v : Value) (out : GoMap String)
    (h : switchBody k v [] = some out) :
    ∀ key ∈ GoMap.keys out, key = k ∨ ∃ fk, key = k ++ "." ++ fk := by
  have hmerge : ∀ sub : GoMap String, ∀ key ∈ GoMap.keys (mergePrefixed [] k sub),
      key = k ∨ ∃ fk, key = k ++ "." ++ fk := by
    intro sub key hkey
    rw [mergePrefixed_eq] at hkey
    have h1 := mem_keys_assignAll _ key hkey
    simp only [List.map_map, List.mem_map, Function.comp, underLabel] at h1
    obtain ⟨e, _, he⟩ := h1
    exact Or.inr ⟨e.1, he.symm⟩
  have hassign : ∀ text : String, ∀ key ∈ GoMap.keys (GoMap.assign [] k text),
      key = k ∨ ∃ fk, key = k ++ "." ++ fk := by
    intro text key hkey
    simp only [GoMap.assign, GoMap.keys, List.map_cons, List.map_nil, List.mem_singleton]
      at hkey
    exact Or.inl hkey
  cases v with
  | null =>
    simp only [switchBody, Option.some.injEq] at h
    subst h
    exact hassign _
  | scalar s =>
    simp only [switchBody, Option.some.injEq] at h
    subst h
    exact hassign _
  | slice xs =>
    simp only [switchBody] at h
    cases hs : flattenSlice xs with
    | none => simp [hs] at h
    | some sub =>
      simp only [hs, Option.some.injEq] at h
      subst h
      exact hmerge sub
  | strMap m =>
    simp only [switchBody] at h
    cases hs : flatten m with
    | none => simp [hs] at h
    | some sub =>
      simp only [hs, Option.some.injEq] at h
      subst h
      exact hmerge sub
  | ifaceMap m =>
    simp only [switchBody] at h
    cases hc : convertMap m with
    | none => simp [hc] at h
    | some converted =>
      simp only [hc] at h
      cases hs : flatten converted with
      | none => simp [hs] at h
      | some sub =>
        simp only [hs, Option.some.injEq] at h
        subst h
        exact hmerge sub

theorem indexOrNil_eq_null_iff (data : List (String × Value)) (k : String) :
    indexOrNil data k = Value.null ↔
      (GoMap.index? data k = none ∨ GoMap.index? data k = some Value.null) := by
  unfold indexOrNil
  cases GoMap.index? data k with
  | none => simp
  | some v => simp

/-- What `flattenFromKey data k` does, the panic apart: it returns the error
`key k not found` exactly when `k` is
absent from `data` or `data[k]` is null. Otherwise it behaves as `flatten` on the single-entry
mapping `{k: data[k]}`: whenever that returns a map (always, when the mappings below
`data[k]` have string keys), `flattenFromKey` returns the same map and no error. Every key of
a returned map is `k` or starts with `k` and a dot. -/
theorem flattenFromKey_spec (data : List (String × Value)) (k : String) :
    ((∃ out msg, flattenFromKey data k = some (out, some msg)) ↔
        (GoMap.index? data k = none ∨ GoMap.index? data k = some Value.null)) ∧
      ((GoMap.index? data k = none ∨ GoMap.index? data k = some Value.null) →
        flattenFromKey data k = some ([], some ("key " ++ k ++ " not found"))) ∧
      (∀ v, GoMap.index? data k = some v → v ≠ Value.null →
        flattenFromKey data k = (flatten [(k, v)]).map (fun out => (out, none)) ∧
        (stringKeyedV v = true →
          ∃ out, flatten [(k, v)] = some out ∧ flattenFromKey data k = some (out, none))) ∧
      (∀ out err, flattenFromKey data k = some (out, err) →
        ∀ key ∈ GoMap.keys out, key = k ∨ ∃ fk, key = k ++ "." ++ fk) := by
  have hnull : indexOrNil data k = Value.null →
      flattenFromKey data k = some ([], some ("key " ++ k ++ " not found")) := by
    intro h
    unfold flattenFromKey
    rw [h]
  have hvalue : ∀ v, GoMap.index? data k = some v → v ≠ Value.null →
      flattenFromKey data k = (flatten [(k, v)]).map (fun out => (out, none)) := by
    intro v hv hne
    have h1 : indexOrNil data k = v := by simp [indexOrNil, hv]
    rw [flattenFromKey_of_value data k (by rw [h1]; exact hne), h1, flatten_single]
  refine ⟨⟨?_, ?_⟩, ?_, ?_, ?_⟩
  · rintro ⟨out, msg, h⟩
    by_contra hn
    rw [← indexOrNil_eq_null_iff] at hn
    rw [flattenFromKey_of_value data k hn] at h
    cases hs : switchBody k (indexOrNil data k) [] with
    | none => simp [hs] at h
    | some out' => simp [hs] at h
  · intro h
    exact ⟨[], _, hnull ((indexOrNil_eq_null_iff data k).2 h)⟩
  · intro h
    exact hnull ((indexOrNil_eq_null_iff data k).2 h)
  · intro v hv hne
    refine ⟨hvalue v hv hne, fun hkeys => ?_⟩
    obtain ⟨out, hout, _⟩ := flatten_spec [(k, v)] (by simp [stringKeyedM, hkeys])
    exact ⟨out, hout, by rw [hvalue v hv hne, hout]; rfl⟩
  · intro out err h key hkey
    by_cases hn : indexOrNil data k = Value.null
    · rw [hnull hn] at h
      simp only [Option.some.injEq, Prod.mk.injEq] at h
      rw [← h.1] at hkey
      simp [GoMap.keys] at hkey
    · rw [flattenFromKey_of_value data k hn] at h
      cases hs : switchBody k (indexOrNil data k) [] with
      | none => simp [hs] at h
      | some out' =>
        simp only [hs, Option.map_some', Option.some.injEq, Prod.mk.injEq] at h
        rw [← h.1] at hkey
        exact switchBody_keys k _ out' hs key hkey

/-- Instances: `flattenFromKey({"a": {"b": 1}}, "a") = {"a.b": "1"}` with no error, and
`flattenFromKey({"a": {"b": 1}, "n": null}, key)` fails for the absent key `missing` and for
the null entry `n`. -/
theorem flattenFromKey_spec_witness :
    flattenFromKey [("a", .strMap [("b", .scalar (.int 1))])] "a" =
        some ([("a.b", "1")], none) ∧
      flattenFromKey [("a", .strMap [("b", .scalar (.int 1))]), ("n", .null)] "missing" =
        some ([], some "key missing not found") ∧
      flattenFromKey [("a", .strMap [("b", .scalar (.int 1))]), ("n", .null)] "n" =
        some ([], some "key n not found") := by
  refine ⟨?_, ?_, ?_⟩
  · have h := ((flattenFromKey_spec [("a", .strMap [("b", .scalar (.int 1))])] "a").2.2.1
      (.strMap [("b", .scalar (.int 1))]) (by simp [GoMap.index?]) (by simp)).1
    rw [h]
    simp [flatten_eq, flattenRange_cons, flattenRange_nil, switchBody, mergePrefixed,
      GoMap.assign, sprint]
    decide
  · exact (flattenFromKey_spec _ "missing").2.1 (Or.inl (by simp [GoMap.index?]))
  · exact (flattenFromKey_spec _ "n").2.1 (Or.inr (by simp [GoMap.index?]))

/-! ## Keys that are not strings -/

theorem convertMapRange_panics (m : List (Scalar × Value)) (acc : GoMap Value)
    (h : ∃ e ∈ m, isStr e.1 = false) : convertMapRange m acc = none := by
  induction m generalizing acc with
  | nil => simp at h
  | cons x rest ih =>
    obtain ⟨key, value⟩ := x
    cases key with
    | bool b => simp [convertMapRange]
    | int i => simp [convertMapRange]
    | str s =>
      simp only [convertMapRange]
      apply ih
      obtain ⟨e, he, hs⟩ := h
      rcases List.mem_cons.1 he with rfl | he
      · simp [isStr] at hs
      · exact ⟨e, he, hs⟩

/-- A mapping with a key that is not a string makes `flatten` panic, wherever the key stands
among the keys of the mapping and whatever else the tree holds after it. -/
theorem flatten_panics (k : String) (m : List (Scalar × Value))
    (rest : List (String × Value)) (h : ∃ e ∈ m, isStr e.1 = false) :
    flatten ((k, .ifaceMap m) :: rest) = none := by
  rw [flatten_eq, flattenRange_cons]
  simp [switchBody, convertMap, convertMapRange_panics m [] h]

theorem distinctKeysM_coerceKeys (m : List (Scalar × Value)) :
    distinctKeysM (coerceKeys m) = distinctKeysI m := by
  induction m with
  | nil => simp [coerceKeys, distinctKeysM, distinctKeysI]
  | cons x rest ih =>
    obtain ⟨k, v⟩ := x
    simp only [coerceKeys, List.map_cons, distinctKeysM, distinctKeysI] at ih ⊢
    rw [ih]

theorem nonStringKeyM_coerceKeys (m : List (Scalar × Value))
    (hk : ∀ e ∈ m, isStr e.1 = true) : nonStringKeyM (coerceKeys m) = nonStringKeyI m := by
  induction m with
  | nil => simp [coerceKeys, nonStringKeyM, nonStringKeyI]
  | cons x rest ih =>
    obtain ⟨k, v⟩ := x
    have h1 : isStr k = true := hk (k, v) (List.mem_cons_self _ _)
    have h2 := ih (fun e he => hk e (List.mem_cons_of_mem _ he))
    simp only [coerceKeys, List.map_cons, nonStringKeyM, nonStringKeyI] at h2 ⊢
    rw [h2, h1]
    simp

theorem isStr_iff (key : Scalar) : isStr key = true ↔ ∃ s, key = Scalar.str s := by
  cases key with
  | str s => simp [isStr]
  | bool b => simp [isStr]
  | int i => simp [isStr]

theorem switchBody_panics (n : Nat) (ih : PanicsUpTo n) (v : Value) (hsize : sizeV v ≤ n)
    (hd : distinctKeysV v = true) (hbad : nonStringKeyV v = true) (k : String)
    (ret : GoMap String) : switchBody k v ret = none := by
  cases v with
  | null => simp [nonStringKeyV] at hbad
  | scalar s => simp [nonStringKeyV] at hbad
  | slice xs =>
    simp only [sizeV] at hsize
    simp only [distinctKeysV] at hd
    simp only [nonStringKeyV] at hbad
    simp [switchBody, flattenSlice_eq, ih.2 xs (by omega) hd hbad 0 []]
  | strMap m =>
    simp only [sizeV] at hsize
    simp only [distinctKeysV] at hd
    simp only [nonStringKeyV] at hbad
    simp [switchBody, flatten_eq, ih.1 m (by omega) hd hbad []]
  | ifaceMap m =>
    simp only [sizeV] at hsize
    simp only [distinctKeysV, Bool.and_eq_true, decide_eq_true_eq] at hd
    simp only [nonStringKeyV] at hbad
    by_cases hk : ∀ e ∈ m, isStr e.1 = true
    · have hconv := convertMap_strings m (fun e he => (isStr_iff e.1).1 (hk e he)) hd.1
      have hsub := ih.1 (coerceKeys m) (by rw [sizeM_coerceKeys]; omega)
        (by rw [distinctKeysM_coerceKeys]; exact hd.2)
        (by rw [nonStringKeyM_coerceKeys m hk]; exact hbad) []
      simp [switchBody, hconv, flatten_eq, hsub]
    · have hex : ∃ e ∈ m, isStr e.1 = false := by
        by_contra hn
        apply hk
        intro e he
        cases hs : isStr e.1 with
        | true => rfl
        | false => exact absurd ⟨e, he, hs⟩ hn
      simp [switchBody, convertMap, convertMapRange_panics m [] hex]

theorem panics_spec : ∀ n, PanicsUpTo n := by
  intro n
  induction n with
  | zero =>
    constructor
    · intro data hsize _ hbad ret
      cases data with
      | nil => simp [nonStringKeyM] at hbad
      | cons x rest =>
        obtain ⟨k, v⟩ := x
        simp only [sizeM] at hsize
        omega
    · intro xs hsize _ hbad idx ret
      cases xs with
      | nil => simp [nonStringKeyL] at hbad
      | cons v rest =>
        simp only [sizeL] at hsize
        omega
  | succ n ih =>
    constructor
    · intro data
      induction data with
      | nil =>
        intro _ _ hbad
        simp [nonStringKeyM] at hbad
      | cons x rest ihrest =>
        obtain ⟨k, v⟩ := x
        intro hsize hd hbad ret
        simp only [sizeM] at hsize
        simp only [distinctKeysM, Bool.and_eq_true] at hd
        simp only [nonStringKeyM, Bool.or_eq_true] at hbad
        rw [flattenRange_cons]
        rcases hbad with hbad | hbad
        · rw [switchBody_panics n ih v (by omega) hd.1 hbad k ret]
          rfl
        · cases switchBody k v ret with
          | none => rfl
          | some mid => exact ihrest (by omega) hd.2 hbad mid
    · intro xs
      induction xs with
      | nil =>
        intro _ _ hbad
        simp [nonStringKeyL] at hbad
      | cons v rest ihrest =>
        intro hsize hd hbad idx ret
        simp only [sizeL] at hsize
        simp only [distinctKeysL, Bool.and_eq_true] at hd
        simp only [nonStringKeyL, Bool.or_eq_true] at hbad
        rw [flattenSliceRange_cons]
        rcases hbad with hbad | hbad
        · rw [switchBody_panics n ih v (by omega) hd.1 hbad (toString idx) ret]
          rfl
        · cases switchBody (toString idx) v ret with
          | none => rfl
          | some mid => exact ihrest (by omega) hd.2 hbad (idx + 1) mid

/-- On every tree in which some `map[interface{}]interface{}`, at any depth, has a key that
is not a string, `flatten` panics. -/
theorem flatten_panics_anywhere (data : List (String × Value))
    (hd : distinctKeysM data = true) (hbad : nonStringKeyM data = true) :
    flatten data = none := by
  rw [flatten_eq]
  exact (panics_spec (sizeM data)).1 data (le_refl _) hd hbad []

/-- C8, the failing input: on `{"a": {1: "x"}}`, whose inner mapping has the integer key `1`,
`convertMap` panics, and so do `flatten` and `flattenFromKey`; so does `flatten` on
`{"l": [{true: "x"}]}`, where the mapping stands inside a list. The claim expects the entry
`a.1 -> x`. -/
theorem convertMap_nonstring_key_panics :
    convertMap [(.int 1, .scalar (.str "x"))] = none ∧
      flatten [("a", .ifaceMap [(.int 1, .scalar (.str "x"))])] = none ∧
      flattenFromKey [("a", .ifaceMap [(.int 1, .scalar (.str "x"))])] "a" = none ∧
      flatten [("l", .slice [.ifaceMap [(.bool true, .scalar (.str "x"))]])] = none ∧
      leafPaths [("a", .ifaceMap [(.int 1, .scalar (.str "x"))])] = ["a.1"] := by
  refine ⟨?_, ?_, ?_, ?_, by decide⟩
  · simp [convertMap, convertMapRange]
  · simp [flatten_eq, flattenRange_cons, switchBody, convertMap, convertMapRange]
  · simp [flattenFromKey, indexOrNil, GoMap.index?, convertMap, convertMapRange]
  · simp [flatten_eq, flattenSlice_eq, flattenRange_cons, flattenSliceRange_cons, switchBody,
      convertMap, convertMapRange]

/-- C6, the failing input: in `{"a": {1: "x"}, "n": 2}` the key `a` is present and its value
is not null, and `flattenFromKey` on `a` panics in `convertMap` instead of returning a map and
a nil error; `flatten` on the single-entry mapping `{"a": {1: "x"}}` panics alike. The claim
expects the map `{"a.1": "x"}` and no error. On the other keys the function does as the claim
says: `n` gives `{"n": "2"}`, the absent key `z` the error. -/
theorem flattenFromKey_nonstring_key_panics :
    GoMap.index? intKeyData "a" = some (.ifaceMap [(.int 1, .scalar (.str "x"))]) ∧
      flattenFromKey intKeyData "a" = none ∧
      flatten [("a", .ifaceMap [(.int 1, .scalar (.str "x"))])] = none ∧
      leafPaths [("a", .ifaceMap [(.int 1, .scalar (.str "x"))])] = ["a.1"] ∧
      flattenFromKey intKeyData "n" = some ([("n", "2")], none) ∧
      flattenFromKey intKeyData "z" = some ([], some "key z not found") := by
  refine ⟨?_, ?_, ?_, by decide, ?_, ?_⟩
  · simp [intKeyData, GoMap.index?]
  · simp [intKeyData, flattenFromKey, indexOrNil, GoMap.index?, convertMap, convertMapRange]
  · simp [flatten_eq, flattenRange_cons, switchBody, convertMap, convertMapRange]
  · simp [intKeyData, flattenFromKey, indexOrNil, GoMap.index?, GoMap.assign, sprint]
    decide
  · simp [intKeyData, flattenFromKey, indexOrNil, GoMap.index?]

/-- C7, the failing input: the tree `{"a": {1: "x"}, "b": null}` has the two leaves `x` and
null, with the distinct paths `a.1` and `b`, and `flatten` panics in `convertMap` on the
integer key `1`, whichever entry it visits first: it stores neither `x` under `a.1` nor `null`
under `b`. -/
theorem flatten_leaf_values_nonstring_key_panics :
    leafPaths intKeyTree = ["a.1", "b"] ∧ (leafPaths intKeyTree).Nodup ∧
      (["a", "1"], some (Scalar.str "x")) ∈ leavesM intKeyTree ∧
      (["b"], (none : Leaf)) ∈ leavesM intKeyTree ∧
      flatten intKeyTree = none ∧
      flatten [("b", Value.null), ("a", .ifaceMap [(.int 1, .scalar (.str "x"))])] = none := by
  refine ⟨by decide, by decide, by decide, by decide, ?_, ?_⟩
  · simp [intKeyTree, flatten_eq, flattenRange_cons, switchBody, convertMap, convertMapRange]
  · simp [flatten_eq, flattenRange_cons, switchBody, convertMap, convertMapRange]

/-! ## `validateMode` -/

theorem digitVal_octal (c : Char) (h : octalDigit c = true) :
    digitVal c = some (c.toNat - 48) ∧ c.toNat - 48 < 8 := by
  simp only [octalDigit, decide_eq_true_eq] at h
  have h0 : '0'.toNat = 48 := by decide
  have h9 : '9'.toNat = 57 := by decide
  constructor
  · unfold digitVal
    rw [h0, h9]
    rw [if_pos ⟨h.1, by omega⟩]
  · omega

theorem digitVal_not_octal (c : Char) (h : octalDigit c = false) :
    digitVal c = none ∨ ∃ d, digitVal c = some d ∧ d ≥ 8 := by
  simp only [octalDigit, decide_eq_false_iff_not] at h
  have h0 : '0'.toNat = 48 := by decide
  have h9 : '9'.toNat = 57 := by decide
  have ha : 'a'.toNat = 97 := by decide
  unfold digitVal
  rw [h0, h9, ha]
  by_cases h1 : 48 ≤ c.toNat ∧ c.toNat ≤ 57
  · rw [if_pos h1]
    exact Or.inr ⟨_, rfl, by omega⟩
  · rw [if_neg h1]
    by_cases h2 : 97 ≤ lower c ∧ lower c ≤ 'z'.toNat
    · rw [if_pos h2]
      exact Or.inr ⟨_, rfl, by omega⟩
    · rw [if_neg h2]
      exact Or.inl rfl

theorem parseUintRange_step (c : Char) (rest : List Char) (n : Nat)
    (h : octalDigit c = true) (hn : n < 2 ^ 60) :
    parseUintRange 8 (maxUint64 / 8 + 1) maxUint64 (c :: rest) n =
      parseUintRange 8 (maxUint64 / 8 + 1) maxUint64 rest (n * 8 + (c.toNat - 48)) := by
  obtain ⟨h1, h2⟩ := digitVal_octal c h
  have hmax : maxUint64 = 18446744073709551615 := by decide
  simp only [parseUintRange, h1, hmax]
  have e1 : ¬ (c.toNat - 48 ≥ 8) := by omega
  have e2 : ¬ (n ≥ 18446744073709551615 / 8 + 1) := by omega
  have e3 : (n * 8 + (c.toNat - 48)) % 2 ^ 64 = n * 8 + (c.toNat - 48) := by
    apply Nat.mod_eq_of_lt
    omega
  simp only [e1, e2, e3, if_false]
  have e4 : ¬ (n * 8 + (c.toNat - 48) < n * 8 ∨ n * 8 + (c.toNat - 48) > 18446744073709551615) := by
    omega
  simp only [e4, if_false]

theorem parseUintRange_none (cs : List Char) (cutoff maxVal n : Nat)
    (h : (parseUintRange 8 cutoff maxVal cs n).2 = none) : cs.all octalDigit = true := by
  induction cs generalizing n with
  | nil => rfl
  | cons c rest ih =>
    simp only [List.all_cons, Bool.and_eq_true]
    cases ho : octalDigit c with
    | false =>
      rcases digitVal_not_octal c ho with hd | ⟨d, hd, hge⟩
      · simp [parseUintRange, hd] at h
      · simp [parseUintRange, hd, hge] at h
    | true =>
      refine ⟨rfl, ?_⟩
      obtain ⟨h1, h2⟩ := digitVal_octal c ho
      simp only [parseUintRange, h1] at h
      have e1 : ¬ (c.toNat - 48 ≥ 8) := by omega
      simp only [e1, if_false] at h
      split at h
      · simp at h
      · split at h
        · simp at h
        · exact ih _ h

theorem utf8Size_ascii (c : Char) (h : c.toNat ≤ 127) : c.utf8Size = 1 := by
  unfold Char.utf8Size
  have : c.val ≤ 127 := by
    show c.val.toNat ≤ 127
    exact h
  simp [this]

theorem utf8ByteSize_ascii (cs : List Char) (h : ∀ c ∈ cs, c.toNat ≤ 127) :
    (String.mk cs).utf8ByteSize = cs.length := by
  induction cs with
  | nil => rfl
  | cons c rest ih =>
    have h1 := ih (fun x hx => h x (List.mem_cons_of_mem _ hx))
    have h2 := utf8Size_ascii c (h c (List.mem_cons_self _ _))
    simp only [String.utf8ByteSize, String.utf8ByteSize.go, List.length_cons] at h1 ⊢
    omega

theorem parseUintRange_range (cs : List Char) (cutoff maxVal n : Nat)
    (h : (parseUintRange 8 cutoff maxVal cs n).2 = some .errRange) :
    (parseUintRange 8 cutoff maxVal cs n).1 = maxVal := by
  induction cs generalizing n with
  | nil => simp [parseUintRange] at h
  | cons c rest ih =>
    simp only [parseUintRange] at h ⊢
    cases hd : digitVal c with
    | none => simp [hd] at h
    | some d =>
      simp only [hd] at h ⊢
      split
      · rename_i h1
        simp [h1] at h
      · rename_i h1
        simp only [h1, if_false] at h
        split
        · rfl
        · rename_i h2
          simp only [h2, if_false] at h
          split
          · rfl
          · rename_i h3
            simp only [h3, if_false] at h
            exact ih _ h

theorem parseUintRange_octal (cs : List Char) (n a : Nat) (h : cs.all octalDigit = true)
    (hn : n < 8 ^ a) (ha : a + cs.length ≤ 19) :
    parseUintRange 8 (maxUint64 / 8 + 1) maxUint64 cs n = (octalValue cs n, none) ∧
      octalValue cs n < 8 ^ (a + cs.length) := by
  induction cs generalizing n a with
  | nil => exact ⟨rfl, by simpa [octalValue] using hn⟩
  | cons c rest ih =>
    simp only [List.all_cons, Bool.and_eq_true] at h
    simp only [List.length_cons] at ha
    have hpow : 8 ^ a ≤ 8 ^ 19 := Nat.pow_le_pow_right (by decide) (by omega)
    have h19 : (8 : Nat) ^ 19 = 144115188075855872 := by norm_num
    have hd := (digitVal_octal c h.1).2
    have hn2 : n * 8 + (c.toNat - 48) < 8 ^ (a + 1) := by
      rw [pow_succ]
      omega
    have hstep := parseUintRange_step c rest n h.1 (by
      have : (2 : Nat) ^ 60 = 1152921504606846976 := by norm_num
      omega)
    obtain ⟨h1, h2⟩ := ih (n * 8 + (c.toNat - 48)) (a + 1) h.2 hn2 (by omega)
    refine ⟨?_, ?_⟩
    · rw [hstep, h1]
      rfl
    · have e : a + (rest.length + 1) = a + 1 + rest.length := by omega
      rw [List.length_cons, e]
      exact h2

theorem parseUint_octal (cs : List Char) (h : cs.all octalDigit = true) (hne : cs ≠ [])
    (hlen : cs.length ≤ 4) :
    parseUint cs 8 = (octalValue cs 0, none) ∧ octalValue cs 0 < 8 ^ cs.length := by
  have := parseUintRange_octal cs 0 0 h (by norm_num) (by omega)
  simp only [parseUint, hne, if_false]
  simpa using this

theorem parseUint_none (cs : List Char) (h : (parseUint cs 8).2 = none) :
    cs ≠ [] ∧ cs.all octalDigit = true := by
  unfold parseUint at h
  by_cases hne : cs = []
  · simp [hne] at h
  · simp only [hne, if_false] at h
    exact ⟨hne, parseUintRange_none cs _ _ 0 h⟩

theorem parseUint_range (cs : List Char) (h : (parseUint cs 8).2 = some .errRange) :
    (parseUint cs 8).1 = maxUint64 := by
  unfold parseUint at h ⊢
  by_cases hne : cs = []
  · simp [hne] at h
  · simp only [hne, if_false] at h ⊢
    exact parseUintRange_range cs _ _ 0 h

/-- The errors of `validateMode` on a string: none exactly when the string is 3 or 4 bytes long
and `ParseInt` reads it in base 8, without error, as a number from 0 to 0777. -/
theorem validateMode_ok_iff (v k : String) :
    (validateMode (some v) k).2 = [] ↔
      (3 ≤ v.utf8ByteSize ∧ v.utf8ByteSize ≤ 4) ∧ (parseInt v 8).2 = none ∧
        0 ≤ (parseInt v 8).1 ∧ (parseInt v 8).1 ≤ 511 := by
  simp only [validateMode, List.append_eq_nil, ite_eq_right_iff, List.cons_ne_nil, imp_false,
    not_or, not_lt, not_not, gt_iff_lt, ne_eq]
  constructor
  · rintro ⟨⟨h1, h2⟩, h3, h4, h5⟩
    exact ⟨⟨h2, h1⟩, h3, h5, h4⟩
  · rintro ⟨⟨h1, h2⟩, h3, h4, h5⟩
    exact ⟨⟨h2, h1⟩, h3, h5, h4⟩

/-- What `ParseInt` in base 8 returns without error: the value of the octal digits that follow
an optional sign. -/
theorem parseInt_none (c : Char) (rest : List Char)
    (h : (parseInt (String.mk (c :: rest)) 8).2 = none) :
    (c = '+' ∧ rest ≠ [] ∧ rest.all octalDigit = true ∧
        (rest.length ≤ 4 → (parseInt (String.mk (c :: rest)) 8).1 = octalValue rest 0)) ∨
      (c = '-' ∧ rest ≠ [] ∧ rest.all octalDigit = true ∧
        (rest.length ≤ 4 → (parseInt (String.mk (c :: rest)) 8).1 = -(octalValue rest 0 : Int))) ∨
      (octalDigit c = true ∧ rest.all octalDigit = true ∧
        (rest.length ≤ 3 →
          (parseInt (String.mk (c :: rest)) 8).1 = octalValue (c :: rest) 0)) := by
  have key : ∀ (neg : Bool) (digits : List Char),
      ((if (parseUint digits 8).2 = some NumError.errSyntax then
            ((0 : Int), some NumError.errSyntax)
          else if neg = false ∧ (parseUint digits 8).1 ≥ 2 ^ 63 then
            (((2 ^ 63 - 1 : Nat) : Int), some NumError.errRange)
          else if neg = true ∧ (parseUint digits 8).1 > 2 ^ 63 then
            (-((2 ^ 63 : Nat) : Int), some NumError.errRange)
          else (if neg then -((parseUint digits 8).1 : Int) else ((parseUint digits 8).1 : Int),
            none)).2 = none) →
      digits ≠ [] ∧ digits.all octalDigit = true ∧
        (digits.length ≤ 4 →
          (if (parseUint digits 8).2 = some NumError.errSyntax then
            ((0 : Int), some NumError.errSyntax)
          else if neg = false ∧ (parseUint digits 8).1 ≥ 2 ^ 63 then
            (((2 ^ 63 - 1 : Nat) : Int), some NumError.errRange)
          else if neg = true ∧ (parseUint digits 8).1 > 2 ^ 63 then
            (-((2 ^ 63 : Nat) : Int), some NumError.errRange)
          else (if neg then -((parseUint digits 8).1 : Int) else ((parseUint digits 8).1 : Int),
            none)).1 = if neg then -(octalValue digits 0 : Int) else (octalValue digits 0 : Int)) := by
    intro neg digits hres
    have hnone : (parseUint digits 8).2 = none := by
      cases hr : (parseUint digits 8).2 with
      | none => rfl
      | some e =>
        cases e with
        | errSyntax => simp [hr] at hres
        | errRange =>
          have hv := parseUint_range digits hr
          have hmax : maxUint64 = 18446744073709551615 := by decide
          rw [hmax] at hv
          simp only [hr, hv] at hres
          cases neg <;> simp at hres
    obtain ⟨hne, hall⟩ := parseUint_none digits hnone
    refine ⟨hne, hall, fun hlen => ?_⟩
    obtain ⟨hval, hlt⟩ := parseUint_octal digits hall hne hlen
    have hlt2 : octalValue digits 0 < 4096 := by
      have : 8 ^ digits.length ≤ 8 ^ 4 := Nat.pow_le_pow_right (by decide) hlen
      have h4 : (8 : Nat) ^ 4 = 4096 := by norm_num
      omega
    rw [hval]
    have e1 : ¬ (9223372036854775808 ≤ octalValue digits 0) := by omega
    have e2 : ¬ (9223372036854775808 < octalValue digits 0) := by omega
    simp [e1, e2]
  by_cases hp : c = '+'
  · subst hp
    have := key false rest (by simpa [parseInt] using h)
    refine Or.inl ⟨rfl, this.1, this.2.1, fun hlen => ?_⟩
    have h2 := this.2.2 hlen
    simpa [parseInt] using h2
  · by_cases hm : c = '-'
    · subst hm
      have := key true rest (by simpa [parseInt] using h)
      refine Or.inr (Or.inl ⟨rfl, this.1, this.2.1, fun hlen => ?_⟩)
      have h2 := this.2.2 hlen
      simpa [parseInt] using h2
    · have := key false (c :: rest) (by simpa [parseInt, hp, hm] using h)
      simp only [List.all_cons, Bool.and_eq_true] at this
      refine Or.inr (Or.inr ⟨this.2.1.1, this.2.1.2, fun hlen => ?_⟩)
      have h2 := this.2.2 (by simpa using hlen)
      simpa [parseInt, hp, hm] using h2

theorem parseInt_digits (neg : Bool) (digits : List Char) (h : digits.all octalDigit = true)
    (hne : digits ≠ []) (hlen : digits.length ≤ 4) :
    (if (parseUint digits 8).2 = some NumError.errSyntax then
        ((0 : Int), some NumError.errSyntax)
      else if neg = false ∧ (parseUint digits 8).1 ≥ 2 ^ 63 then
        (((2 ^ 63 - 1 : Nat) : Int), some NumError.errRange)
      else if neg = true ∧ (parseUint digits 8).1 > 2 ^ 63 then
        (-((2 ^ 63 : Nat) : Int), some NumError.errRange)
      else (if neg then -((parseUint digits 8).1 : Int) else ((parseUint digits 8).1 : Int),
        none)) =
      (if neg then -(octalValue digits 0 : Int) else (octalValue digits 0 : Int), none) := by
  obtain ⟨hval, hlt⟩ := parseUint_octal digits h hne hlen
  have hlt2 : octalValue digits 0 < 4096 := by
    have : 8 ^ digits.length ≤ 8 ^ 4 := Nat.pow_le_pow_right (by decide) hlen
    have h4 : (8 : Nat) ^ 4 = 4096 := by norm_num
    omega
  rw [hval]
  have e1 : ¬ (9223372036854775808 ≤ octalValue digits 0) := by omega
  have e2 : ¬ (9223372036854775808 < octalValue digits 0) := by omega
  simp [e1, e2]

theorem octalDigit_ascii (c : Char) (h : octalDigit c = true) :
    c.toNat ≤ 127 ∧ c ≠ '+' ∧ c ≠ '-' := by
  simp only [octalDigit, decide_eq_true_eq] at h
  refine ⟨by omega, ?_, ?_⟩
  · intro e
    subst e
    have : '+'.toNat = 43 := by decide
    omega
  · intro e
    subst e
    have : '-'.toNat = 45 := by decide
    omega

theorem octalDigit_zero (c : Char) (h : octalDigit c = true) (hz : c.toNat - 48 = 0) :
    c = '0' := by
  simp only [octalDigit, decide_eq_true_eq] at h
  have h1 : c.toNat = 48 := by omega
  have h2 := Char.ofNat_toNat c
  rw [h1] at h2
  rw [← h2]

/-- The strings `validateMode` reports no error for: 3 or 4 octal digits with a value up to
`0777`, as well as a plus sign before 2 or 3 octal digits, `-00` and `-000`. -/
theorem validateMode_accepts_iff (v k : String) :
    (validateMode (some v) k).2 = [] ↔
      ((v.length = 3 ∨ v.length = 4) ∧ v.toList.all octalDigit = true ∧
          octalValue v.toList 0 ≤ 0o777) ∨
        (∃ rest, v.toList = '+' :: rest ∧ (rest.length = 2 ∨ rest.length = 3) ∧
          rest.all octalDigit = true) ∨
        v = "-00" ∨ v = "-000" := by
  rw [validateMode_ok_iff]
  obtain ⟨cs⟩ := v
  simp only [String.length, String.toList]
  constructor
  · rintro ⟨⟨hb1, hb2⟩, hnone, hpos, hle⟩
    cases cs with
    | nil => simp [parseInt] at hnone
    | cons c rest =>
      rcases parseInt_none c rest hnone with ⟨rfl, hne, hall, hval⟩ | ⟨rfl, hne, hall, hval⟩ |
        ⟨hc, hall, hval⟩
      · have hascii : ∀ x ∈ '+' :: rest, x.toNat ≤ 127 := by
          intro x hx
          rcases List.mem_cons.1 hx with rfl | hx
          · decide
          · exact (octalDigit_ascii x (List.all_eq_true.1 hall x hx)).1
        have hsize := utf8ByteSize_ascii _ hascii
        simp only [List.length_cons] at hsize
        rw [hsize] at hb1 hb2
        exact Or.inr (Or.inl ⟨rest, rfl, by omega, hall⟩)
      · have hascii : ∀ x ∈ '-' :: rest, x.toNat ≤ 127 := by
          intro x hx
          rcases List.mem_cons.1 hx with rfl | hx
          · decide
          · exact (octalDigit_ascii x (List.all_eq_true.1 hall x hx)).1
        have hsize := utf8ByteSize_ascii _ hascii
        simp only [List.length_cons] at hsize
        rw [hsize] at hb1 hb2
        have hv := hval (by omega)
        rw [hv] at hpos
        have hzero : octalValue rest 0 = 0 := by omega
        refine Or.inr (Or.inr ?_)
        match rest, hall, hb1, hb2, hzero with
        | [a, b], hall, _, _, hzero =>
          simp only [List.all_cons, List.all_nil, Bool.and_true, Bool.and_eq_true] at hall
          simp only [octalValue, List.foldl_cons, List.foldl_nil] at hzero
          have ha := octalDigit_zero a hall.1 (by omega)
          have hb := octalDigit_zero b hall.2 (by omega)
          subst ha
          subst hb
          exact Or.inl rfl
        | [a, b, c], hall, _, _, hzero =>
          simp only [List.all_cons, List.all_nil, Bool.and_true, Bool.and_eq_true] at hall
          simp only [octalValue, List.foldl_cons, List.foldl_nil] at hzero
          have ha := octalDigit_zero a hall.1 (by omega)
          have hb := octalDigit_zero b hall.2.1 (by omega)
          have hc := octalDigit_zero c hall.2.2 (by omega)
          subst ha
          subst hb
          subst hc
          exact Or.inr rfl
        | [], _, hb1, _, _ => simp at hb1
        | [a], _, hb1, _, _ => simp at hb1
        | _ :: _ :: _ :: _ :: _, _, _, hb2, _ =>
          simp only [List.length_cons] at hb2
          omega
      · have hall2 : (c :: rest).all octalDigit = true := by
          simp only [List.all_cons, Bool.and_eq_true]
          exact ⟨hc, hall⟩
        have hascii : ∀ x ∈ c :: rest, x.toNat ≤ 127 := fun x hx =>
          (octalDigit_ascii x (List.all_eq_true.1 hall2 x hx)).1
        have hsize := utf8ByteSize_ascii _ hascii
        simp only [List.length_cons] at hsize
        rw [hsize] at hb1 hb2
        have hv := hval (by omega)
        rw [hv] at hle
        refine Or.inl ⟨by simp only [List.length_cons]; omega, hall2, ?_⟩
        have : (octalValue (c :: rest) 0 : Int) ≤ 511 := hle
        have h511 : (0o777 : Nat) = 511 := by decide
        rw [h511]
        omega
  · rintro (⟨hlen, hall, hle⟩ | ⟨rest, hcs, hlen, hall⟩ | hv | hv)
    · cases cs with
      | nil => simp at hlen
      | cons c rest =>
        have hascii : ∀ x ∈ c :: rest, x.toNat ≤ 127 := fun x hx =>
          (octalDigit_ascii x (List.all_eq_true.1 hall x hx)).1
        have hsize := utf8ByteSize_ascii _ hascii
        rw [hsize]
        have hc : octalDigit c = true := by
          simp only [List.all_cons, Bool.and_eq_true] at hall
          exact hall.1
        obtain ⟨_, hp, hm⟩ := octalDigit_ascii c hc
        have hparse : parseInt (String.mk (c :: rest)) 8 =
            ((octalValue (c :: rest) 0 : Int), none) := by
          have := parseInt_digits false (c :: rest) hall (by simp) (by omega)
          simpa [parseInt, hp, hm] using this
        rw [hparse]
        have h511 : (0o777 : Nat) = 511 := by decide
        rw [h511] at hle
        refine ⟨by omega, rfl, ?_, ?_⟩
        · exact Int.natCast_nonneg _
        · show (octalValue (c :: rest) 0 : Int) ≤ 511
          omega
    · subst hcs
      have hascii : ∀ x ∈ '+' :: rest, x.toNat ≤ 127 := by
        intro x hx
        rcases List.mem_cons.1 hx with rfl | hx
        · decide
        · exact (octalDigit_ascii x (List.all_eq_true.1 hall x hx)).1
      have hsize := utf8ByteSize_ascii _ hascii
      rw [hsize]
      have hne : rest ≠ [] := by
        intro e
        subst e
        simp at hlen
      have hparse : parseInt (String.mk ('+' :: rest)) 8 = ((octalValue rest 0 : Int), none) := by
        have := parseInt_digits false rest hall hne (by omega)
        simpa [parseInt] using this
      have hlt : octalValue rest 0 < 8 ^ rest.length :=
        (parseUint_octal rest hall hne (by omega)).2
      have hlt2 : octalValue rest 0 < 512 := by
        have : 8 ^ rest.length ≤ 8 ^ 3 := Nat.pow_le_pow_right (by decide) (by omega)
        have h3 : (8 : Nat) ^ 3 = 512 := by norm_num
        omega
      rw [hparse]
      refine ⟨by simp only [List.length_cons]; omega, rfl, ?_, ?_⟩
      · exact Int.natCast_nonneg _
      · show (octalValue rest 0 : Int) ≤ 511
        omega
    · rw [hv]
      decide
    · rw [hv]
      decide

/-- C9, the failing input: `validateMode` reports no error for `+77`, which is three bytes
long, is read by `strconv.ParseInt` in base 8 as 63 and is not made of octal digits; nor
for `-000`. A string of four octal digits up to `0777` passes and `0778` and `7777` do not,
as the claim says. -/
theorem validateMode_accepts_sign :
    validateMode (some "+77") "file_permission" = ([], []) ∧
      parseInt "+77" 8 = (63, none) ∧
      "+77".toList.all octalDigit = false ∧
      validateMode (some "-000") "file_permission" = ([], []) ∧
      validateMode (some "0777") "file_permission" = ([], []) ∧
      validateMode (some "0778") "file_permission" =
        ([], ["bad mode for file - must be three octal digits: 0778"]) ∧
      validateMode (some "7777") "file_permission" =
        ([], ["bad mode for file - must be three octal digits: 7777"]) := by
  decide

/-! ## The format of a file -/

/-- C5, counterexample: for `secrets.txt` both paths fail with a message that names the
extension `.txt` and the formats `json`, `yaml` and `raw`; the supported formats `dotenv` and
`ini` are not in it. -/
theorem format_message_counterexample :
    dataSourceFormat "" "secrets.txt" = .error
        "don't know how to decode file with extension .txt, set input_type to json, yaml or raw as appropriate" ∧
      hasInfix ".txt" (dataSourceUnknownExt ".txt") = true ∧
      hasInfix "dotenv" (dataSourceUnknownExt ".txt") = false ∧
      hasInfix "ini" (dataSourceUnknownExt ".txt") = false ∧
      (resourceFormat "secrets.txt").toOption = none ∧
      (resourceUnknownExt ".txt").map Diagnostic.detail =
        ["don't know how to decode file with extension .txt, set filename to json, yaml or raw as appropriate"] ∧
      ((resourceUnknownExt ".txt").all fun g => hasInfix "dotenv" g.detail) = false ∧
      ((resourceUnknownExt ".txt").all fun g => hasInfix "ini" g.detail) = false := by
  decide

/-- C5, amended: with an empty `input_type`, the data source and the resource Read resolve
the extension `.json` to json, `.yaml` and `.yml` to yaml, `.env` to dotenv and `.ini` to ini;
on every other extension both fail, with a message that names the extension (and the formats
json, yaml and raw); on every path both resolve to the same format or both fail. The data
source goes on with the resolved format or returns the failure once the file is read, and the
resource Read returns the failure once the file is found. -/
theorem format_resolution {FS Config Groups : Type} (h : Host FS Config Groups)
    (d : ResourceData) (fs : FS) (path : String) :
    (pathExt path = ".json" →
        dataSourceFormat "" path = .ok "json" ∧ resourceFormat path = .ok "json") ∧
      (pathExt path = ".yaml" ∨ pathExt path = ".yml" →
        dataSourceFormat "" path = .ok "yaml" ∧ resourceFormat path = .ok "yaml") ∧
      (pathExt path = ".env" →
        dataSourceFormat "" path = .ok "dotenv" ∧ resourceFormat path = .ok "dotenv") ∧
      (pathExt path = ".ini" →
        dataSourceFormat "" path = .ok "ini" ∧ resourceFormat path = .ok "ini") ∧
      (pathExt path ∉ [".json", ".yaml", ".yml", ".env", ".ini"] →
        dataSourceFormat "" path = .error
          ("don't know how to decode file with extension " ++ pathExt path ++
            ", set input_type to json, yaml or raw as appropriate") ∧
        resourceFormat path = .error
          [{ severity := .error, summary := "Error decoding file",
             detail := "don't know how to decode file with extension " ++ pathExt path ++
               ", set filename to json, yaml or raw as appropriate",
             attributePath := some "filename" }]) ∧
      ((∃ format, dataSourceFormat "" path = .ok format ∧ resourceFormat path = .ok format) ∨
        ((∃ err, dataSourceFormat "" path = .error err) ∧
          ∃ diags, resourceFormat path = .error diags)) ∧
      (∀ content, d.get "input_type" = "" →
        h.readFile fs (d.get "source_file") = .ok content →
        dataSourceFileRead h d fs =
          match dataSourceFormat "" (d.get "source_file") with
          | .error err => (d, some err)
          | .ok format =>
            match h.validateInputType format with
            | some err => (d, some err)
            | none => h.readData content format d) ∧
      (∀ diags, h.stat fs (d.get "filename") ≠ .notExist →
        resourceFormat (d.get "filename") = .error diags →
        resourceSopsFileRead h d fs = (d, diags)) := by
  refine ⟨?_, ?_, ?_, ?_, ?_, ?_, ?_, ?_⟩
  · intro he
    simp [dataSourceFormat, resourceFormat, he]
  · intro he
    rcases he with he | he <;> simp [dataSourceFormat, resourceFormat, he]
  · intro he
    simp [dataSourceFormat, resourceFormat, he]
  · intro he
    simp [dataSourceFormat, resourceFormat, he]
  · intro he
    simp only [List.mem_cons, List.mem_singleton, List.not_mem_nil, not_or, or_false] at he
    obtain ⟨h1, h2, h3, h4, h5⟩ := he
    simp [dataSourceFormat, resourceFormat, dataSourceUnknownExt, resourceUnknownExt,
      h1, h2, h3, h4, h5]
  · by_cases h1 : pathExt path = ".json"
    · exact Or.inl ⟨"json", by simp [dataSourceFormat, resourceFormat, h1]⟩
    by_cases h2 : pathExt path = ".yaml"
    · exact Or.inl ⟨"yaml", by simp [dataSourceFormat, resourceFormat, h2]⟩
    by_cases h3 : pathExt path = ".yml"
    · exact Or.inl ⟨"yaml", by simp [dataSourceFormat, resourceFormat, h3]⟩
    by_cases h4 : pathExt path = ".env"
    · exact Or.inl ⟨"dotenv", by simp [dataSourceFormat, resourceFormat, h4]⟩
    by_cases h5 : pathExt path = ".ini"
    · exact Or.inl ⟨"ini", by simp [dataSourceFormat, resourceFormat, h5]⟩
    · exact Or.inr ⟨⟨dataSourceUnknownExt (pathExt path),
          by simp [dataSourceFormat, h1, h2, h3, h4, h5]⟩,
        ⟨resourceUnknownExt (pathExt path), by simp [resourceFormat, h1, h2, h3, h4, h5]⟩⟩
  · intro content hin hread
    simp only [dataSourceFileRead, hread, hin]
  · intro diags hstat hfmt
    unfold resourceSopsFileRead
    cases hs : h.stat fs (d.get "filename") with
    | notExist => exact absurd hs hstat
    | found => simp [hfmt]
    | failed err => simp [hfmt]

/-- C5, witness: `conf/app.yml` and `conf/app.yaml` resolve to yaml on both paths, `.env`
to dotenv, and `secrets.txt` fails on both. -/
theorem format_resolution_witness :
    (dataSourceFormat "" "conf/app.yml" = .ok "yaml" ∧
        resourceFormat "conf/app.yml" = .ok "yaml") ∧
      (dataSourceFormat "" "conf/app.yaml" = .ok "yaml" ∧
        resourceFormat "conf/app.yaml" = .ok "yaml") ∧
      (dataSourceFormat "" ".env" = .ok "dotenv" ∧ resourceFormat ".env" = .ok "dotenv") ∧
      (dataSourceFormat "" "secrets.txt" = .error
          ("don't know how to decode file with extension " ++ pathExt "secrets.txt" ++
            ", set input_type to json, yaml or raw as appropriate") ∧
        resourceFormat "secrets.txt" = .error
          [{ severity := .error, summary := "Error decoding file",
             detail := "don't know how to decode file with extension " ++
               pathExt "secrets.txt" ++ ", set filename to json, yaml or raw as appropriate",
             attributePath := some "filename" }]) :=
  ⟨(format_resolution memHost helloResource emptyFS "conf/app.yml").2.1 (Or.inr (by decide)),
   (format_resolution memHost helloResource emptyFS "conf/app.yaml").2.1 (Or.inl (by decide)),
   (format_resolution memHost helloResource emptyFS ".env").2.2.1 (by decide),
   (format_resolution memHost helloResource emptyFS "secrets.txt").2.2.2.2.1 (by decide)⟩

/-! ## The resource: Read and Create -/

section
variable {FS Config Groups : Type}

theorem sha1Sum_length (data : Bytes) : (sha1Sum data).length = 20 := by
  simp [sha1Sum, wordBytes]

theorem hexEncodeToString_ne_empty (src : Bytes) (h : src ≠ []) :
    hexEncodeToString src ≠ "" := by
  cases src with
  | nil => exact absurd rfl h
  | cons b rest =>
    intro he
    have := congrArg String.data he
    simp [hexEncodeToString] at this

theorem identity_ne_empty (data : Bytes) : hexEncodeToString (sha1Sum data) ≠ "" := by
  apply hexEncodeToString_ne_empty
  intro he
  have := sha1Sum_length data
  rw [he] at this
  simp at this

/-- What Read does once the file is found, has a known extension, is read and is decrypted. -/
theorem read_of_cleartext (h : Host FS Config Groups) (d : ResourceData) (fs : FS)
    (format : String) (content p : Bytes)
    (hexists : h.stat fs (d.get "filename") ≠ .notExist)
    (hformat : resourceFormat (d.get "filename") = .ok format)
    (hread : h.readFile fs (d.get "filename") = .ok content)
    (hdecrypt : h.decryptData content format = .ok p) :
    resourceSopsFileRead h d fs =
      if hexEncodeToString (sha1Sum p) ≠ d.id then (d.setId "", []) else (d, []) := by
  unfold resourceSopsFileRead
  cases hs : h.stat fs (d.get "filename") with
  | notExist => exact absurd hs hexists
  | found => simp [hformat, hread, hdecrypt]
  | failed err => simp [hformat, hread, hdecrypt]

/-- C1: when `filename` exists, has a supported extension, is readable and decrypts to the
plaintext `p`, Read returns no diagnostics; it leaves the resource data, and so the identity,
as it is when the lower-case hexadecimal SHA-1 of `p` is the stored identity, and sets the
identity to the empty string, changing nothing else, when it is not. -/
theorem read_detects_drift (h : Host FS Config Groups) (d : ResourceData) (fs : FS)
    (format : String) (content p : Bytes)
    (hexists : h.stat fs (d.get "filename") ≠ .notExist)
    (hformat : resourceFormat (d.get "filename") = .ok format)
    (hread : h.readFile fs (d.get "filename") = .ok content)
    (hdecrypt : h.decryptData content format = .ok p) :
    (resourceSopsFileRead h d fs).2 = [] ∧
      (hexEncodeToString (sha1Sum p) = d.id → (resourceSopsFileRead h d fs).1 = d) ∧
      (hexEncodeToString (sha1Sum p) ≠ d.id →
        (resourceSopsFileRead h d fs).1 = { d with id := "" } ∧
        (resourceSopsFileRead h d fs).1.id = "") := by
  rw [read_of_cleartext h d fs format content p hexists hformat hread hdecrypt]
  by_cases hid : hexEncodeToString (sha1Sum p) = d.id
  · simp [hid]
  · simp [hid, ResourceData.setId]

/-- C2: when Create resolves the plaintext `p`, encrypts it, finds or makes the directory
and writes the file, and the file system it leaves (`fs2`) holds under `filename`, which has a
supported extension, a file that decrypts to `p`, then Create returns no diagnostics and the
identity is the lower-case hexadecimal SHA-1 of `p`; a Read in that file system, and a
second Read after it, return no diagnostics and leave the resource data, and so the identity,
as Create left it. -/
theorem create_then_read_idempotent (h : Host FS Config Groups) (config : Config)
    (d : ResourceData) (fs fs1 fs2 : FS) (format : String) (p encrypted content : Bytes)
    (hcontent : resourceLocalFileContent h d fs = .ok p)
    (hencrypt : sopsEncrypt h (d.setId (hexEncodeToString (sha1Sum p))) p config =
      .ok encrypted)
    (hdir : (h.stat fs (h.pathDir (d.get "filename")) = .found ∧ fs1 = fs) ∨
      (h.stat fs (h.pathDir (d.get "filename")) ≠ .found ∧
        h.mkdirAll fs (h.pathDir (d.get "filename"))
          (fileModeOf (parseInt (d.get "directory_permission") 8).1) = (fs1, none)))
    (hwrite : h.writeFile fs1 (d.get "filename") encrypted
      (fileModeOf (parseInt (d.get "file_permission") 8).1) = (fs2, none))
    (hformat : resourceFormat (d.get "filename") = .ok format)
    (hexists : h.stat fs2 (d.get "filename") ≠ .notExist)
    (hread : h.readFile fs2 (d.get "filename") = .ok content)
    (hdecrypt : h.decryptData content format = .ok p) :
    resourceSopsFileCreate h config d fs =
        (d.setId (hexEncodeToString (sha1Sum p)), fs2, []) ∧
      (resourceSopsFileCreate h config d fs).1.id = hexEncodeToString (sha1Sum p) ∧
      (resourceSopsFileCreate h config d fs).1.id ≠ "" ∧
      resourceSopsFileRead h (resourceSopsFileCreate h config d fs).1 fs2 =
        ((resourceSopsFileCreate h config d fs).1, []) ∧
      resourceSopsFileRead h
          (resourceSopsFileRead h (resourceSopsFileCreate h config d fs).1 fs2).1 fs2 =
        ((resourceSopsFileCreate h config d fs).1, []) := by
  have hget : ∀ key, (d.setId (hexEncodeToString (sha1Sum p))).get key = d.get key :=
    fun key => rfl
  have hreadOk : resourceSopsFileRead h (d.setId (hexEncodeToString (sha1Sum p))) fs2 =
      (d.setId (hexEncodeToString (sha1Sum p)), []) := by
    rw [read_of_cleartext h _ fs2 format content p (by rw [hget]; exact hexists)
      (by rw [hget]; exact hformat) (by rw [hget]; exact hread) hdecrypt]
    simp [ResourceData.setId]
  have hcreate : resourceSopsFileCreate h config d fs =
      (d.setId (hexEncodeToString (sha1Sum p)), fs2, []) := by
    unfold resourceSopsFileCreate
    simp only [hcontent, hencrypt, hget]
    rcases hdir with ⟨hstat, rfl⟩ | ⟨hstat, hmk⟩
    · simp only [hstat, hwrite, hreadOk]
    · cases hs : h.stat fs (h.pathDir (d.get "filename")) with
      | found => exact absurd hs hstat
      | notExist => simp only [hmk, hwrite, hreadOk]
      | failed err => simp only [hmk, hwrite, hreadOk]
  rw [hcreate]
  refine ⟨rfl, rfl, ?_, hreadOk, ?_⟩
  · exact identity_ne_empty p
  · rw [hreadOk]
    exact hreadOk

/-- What Create returns when a step after the plaintext is resolved fails: the error of that
step, and the identity already set to the SHA-1 of the plaintext. -/
theorem create_failure_after_content (h : Host FS Config Groups) (config : Config)
    (d : ResourceData) (fs : FS) (p : Bytes) (err : String)
    (hcontent : resourceLocalFileContent h d fs = .ok p)
    (hencrypt : sopsEncrypt h (d.setId (hexEncodeToString (sha1Sum p))) p config =
      .error err) :
    resourceSopsFileCreate h config d fs =
        (d.setId (hexEncodeToString (sha1Sum p)), fs, diagFromErr err) ∧
      (resourceSopsFileCreate h config d fs).1.id ≠ "" := by
  have hcreate : resourceSopsFileCreate h config d fs =
      (d.setId (hexEncodeToString (sha1Sum p)), fs, diagFromErr err) := by
    unfold resourceSopsFileCreate
    simp only [hcontent, hencrypt]
  rw [hcreate]
  exact ⟨rfl, identity_ne_empty p⟩

/-- What Create returns when making the directory fails: the error of `os.MkdirAll`, and the
identity already set. -/
theorem create_failure_mkdir (h : Host FS Config Groups) (config : Config)
    (d : ResourceData) (fs fs1 : FS) (p encrypted : Bytes) (err : String)
    (hcontent : resourceLocalFileContent h d fs = .ok p)
    (hencrypt : sopsEncrypt h (d.setId (hexEncodeToString (sha1Sum p))) p config =
      .ok encrypted)
    (hstat : h.stat fs (h.pathDir (d.get "filename")) ≠ .found)
    (hmkdir : h.mkdirAll fs (h.pathDir (d.get "filename"))
      (fileModeOf (parseInt (d.get "directory_permission") 8).1) = (fs1, some err)) :
    resourceSopsFileCreate h config d fs =
      (d.setId (hexEncodeToString (sha1Sum p)), fs1, diagFromErr err) := by
  have hget : ∀ key, (d.setId (hexEncodeToString (sha1Sum p))).get key = d.get key :=
    fun key => rfl
  unfold resourceSopsFileCreate
  simp only [hcontent, hencrypt, hget]
  cases hs : h.stat fs (h.pathDir (d.get "filename")) with
  | found => exact absurd hs hstat
  | notExist => simp only [hmkdir]
  | failed e => simp only [hmkdir]

/-- What Create returns when writing the file fails: the error of `os.WriteFile`, and the
identity already set. -/
theorem create_failure_write (h : Host FS Config Groups) (config : Config)
    (d : ResourceData) (fs fs1 fs2 : FS) (p encrypted : Bytes) (err : String)
    (hcontent : resourceLocalFileContent h d fs = .ok p)
    (hencrypt : sopsEncrypt h (d.setId (hexEncodeToString (sha1Sum p))) p config =
      .ok encrypted)
    (hdir : (h.stat fs (h.pathDir (d.get "filename")) = .found ∧ fs1 = fs) ∨
      (h.stat fs (h.pathDir (d.get "filename")) ≠ .found ∧
        h.mkdirAll fs (h.pathDir (d.get "filename"))
          (fileModeOf (parseInt (d.get "directory_permission") 8).1) = (fs1, none)))
    (hwrite : h.writeFile fs1 (d.get "filename") encrypted
      (fileModeOf (parseInt (d.get "file_permission") 8).1) = (fs2, some err)) :
    resourceSopsFileCreate h config d fs =
      (d.setId (hexEncodeToString (sha1Sum p)), fs2, diagFromErr err) := by
  have hget : ∀ key, (d.setId (hexEncodeToString (sha1Sum p))).get key = d.get key :=
    fun key => rfl
  unfold resourceSopsFileCreate
  simp only [hcontent, hencrypt, hget]
  rcases hdir with ⟨hstat, rfl⟩ | ⟨hstat, hmk⟩
  · simp only [hstat, hwrite]
  · cases hs : h.stat fs (h.pathDir (d.get "filename")) with
    | found => exact absurd hs hstat
    | notExist => simp only [hmk, hwrite]
    | failed e => simp only [hmk, hwrite]

/-- What Create returns when the plaintext cannot be resolved: the error, and the resource
data as it was. -/
theorem create_failure_content (h : Host FS Config Groups) (config : Config)
    (d : ResourceData) (fs : FS) (err : String)
    (hcontent : resourceLocalFileContent h d fs = .error err) :
    resourceSopsFileCreate h config d fs = (d, fs, diagFromErr err) := by
  unfold resourceSopsFileCreate
  simp only [hcontent]

end

set_option maxRecDepth 100000 in
/-- The digests of the empty message and of `abc`, as FIPS 180-4 gives them. -/
theorem sha1Sum_examples :
    hexEncodeToString (sha1Sum []) = "da39a3ee5e6b4b0d3255bfef95601890afd80709" ∧
      hexEncodeToString (sha1Sum (bytesOf "abc")) =
        "a9993e364706816aba3e25717850c26c9cd0d89d" := by
  decide

set_option maxRecDepth 100000 in
theorem helloId_eq : hexEncodeToString (sha1Sum (bytesOf "hello")) = helloId := by decide

set_option maxRecDepth 100000 in
theorem byeId_ne : hexEncodeToString (sha1Sum (bytesOf "bye")) ≠ helloId := by decide

/-- C1, witness: the resource with the identity of `hello`, read where the file holds the
encryption of `hello` (no drift) and where it holds the encryption of `bye` (drift). -/
theorem read_detects_drift_witness :
    (memHost.stat helloFS ((helloResource.setId helloId).get "filename") ≠ .notExist ∧
      resourceFormat ((helloResource.setId helloId).get "filename") = .ok "yaml" ∧
      memHost.readFile helloFS ((helloResource.setId helloId).get "filename") =
        .ok (bytesOf "ENC:hello") ∧
      memHost.decryptData (bytesOf "ENC:hello") "yaml" = .ok (bytesOf "hello") ∧
      (resourceSopsFileRead memHost (helloResource.setId helloId) helloFS).2 = [] ∧
      (resourceSopsFileRead memHost (helloResource.setId helloId) helloFS).1 =
        helloResource.setId helloId) ∧
    (memHost.stat driftedFS ((helloResource.setId helloId).get "filename") ≠ .notExist ∧
      memHost.readFile driftedFS ((helloResource.setId helloId).get "filename") =
        .ok (bytesOf "ENC:bye") ∧
      memHost.decryptData (bytesOf "ENC:bye") "yaml" = .ok (bytesOf "bye") ∧
      (resourceSopsFileRead memHost (helloResource.setId helloId) driftedFS).2 = [] ∧
      (resourceSopsFileRead memHost (helloResource.setId helloId) driftedFS).1.id = "") := by
  have h1 := read_detects_drift memHost (helloResource.setId helloId) helloFS "yaml"
    (bytesOf "ENC:hello") (bytesOf "hello") (by decide) (by decide) (by decide) (by decide)
  have h2 := read_detects_drift memHost (helloResource.setId helloId) driftedFS "yaml"
    (bytesOf "ENC:bye") (bytesOf "bye") (by decide) (by decide) (by decide) (by decide)
  exact ⟨⟨by decide, by decide, by decide, by decide, h1.1, h1.2.1 helloId_eq⟩,
    ⟨by decide, by decide, by decide, h2.1, (h2.2.2 byeId_ne).2⟩⟩

/-- C2, witness: `helloResource` created in the empty file system. -/
theorem create_then_read_idempotent_witness :
    resourceLocalFileContent memHost helloResource emptyFS = .ok (bytesOf "hello") ∧
      memHost.writeFile { files := [], dirs := ["out"] } "out/secret.yaml"
        (bytesOf "ENC:hello") 511 = (helloFS, none) ∧
      memHost.decryptData (bytesOf "ENC:hello") "yaml" = .ok (bytesOf "hello") ∧
      resourceSopsFileCreate memHost () helloResource emptyFS =
        (helloResource.setId (hexEncodeToString (sha1Sum (bytesOf "hello"))), helloFS, []) ∧
      (resourceSopsFileCreate memHost () helloResource emptyFS).1.id =
        hexEncodeToString (sha1Sum (bytesOf "hello")) ∧
      (resourceSopsFileCreate memHost () helloResource emptyFS).1.id ≠ "" ∧
      resourceSopsFileRead memHost (resourceSopsFileCreate memHost () helloResource emptyFS).1
          helloFS =
        ((resourceSopsFileCreate memHost () helloResource emptyFS).1, []) ∧
      resourceSopsFileRead memHost
          (resourceSopsFileRead memHost
            (resourceSopsFileCreate memHost () helloResource emptyFS).1 helloFS).1 helloFS =
        ((resourceSopsFileCreate memHost () helloResource emptyFS).1, []) :=
  ⟨by decide, by decide, by decide,
    create_then_read_idempotent memHost () helloResource emptyFS
      { files := [], dirs := ["out"] } helloFS "yaml" (bytesOf "hello") (bytesOf "ENC:hello")
      (bytesOf "ENC:hello") (by decide) (by decide) (Or.inr ⟨by decide, by decide⟩)
      (by decide) (by decide) (by decide) (by decide) (by decide)⟩

/-- C4, the failing input: Create of a resource with the plaintext `hello`, the encryption
type `kms` and no kms key. Building the key groups fails; Create returns that error, the file
system is untouched, and the identity is the SHA-1 of `hello`, not the empty string. -/
theorem create_failure_sets_identity :
    helloResourceNoKeys.id = "" ∧
      sopsEncrypt memHost (helloResourceNoKeys.setId helloId) (bytesOf "hello") () =
        .error "no kms keys are configured" ∧
      resourceSopsFileCreate memHost () helloResourceNoKeys emptyFS =
        (helloResourceNoKeys.setId helloId, emptyFS,
          diagFromErr "no kms keys are configured") ∧
      (resourceSopsFileCreate memHost () helloResourceNoKeys emptyFS).1.id =
        "aaf4c61ddcc5e8a2dabede0f3b482cd9aea9434d" := by
  have h := create_failure_after_content memHost () helloResourceNoKeys emptyFS
    (bytesOf "hello") "no kms keys are configured" (by decide) (by decide)
  rw [helloId_eq] at h
  refine ⟨rfl, by decide, h.1, ?_⟩
  rw [h.1]
  rfl

end Sops
